import Mathlib

/-!
# Poedit preferences dialog (`src/prefsdlg.cpp`)

A shallow embedding of `PrefsPanel`, `ExtractorsPageWindow`, `GeneralPageWindow` and of
the file import of `TMPageWindow`, together with the parts of the toolkit they drive (list
box, buttons, choice, the edit dialog, the progress dialog, the configuration store),
followed by theorems about the list-editing controller, the transfer guard, the
line-ending setting and the loop that imports files.

Conventions of the embedding

* C++ `int` indices are `Int`; `wxNOT_FOUND` is `-1`.  Container sizes are far below
  `2^31` (each record holds six heap strings), so the cast `(int)Data.size()` is the
  identity here.
* `std::vector` is `List`.  `operator[]` and `erase` outside the valid range are undefined
  behaviour in C++; the embedding returns `none` there.
* The window-modal edit dialog blocks the page while it is open, so one handler together
  with its completion lambda is one atomic step; what the user did in the dialog is the
  `DialogResult` argument.
* `wxPreferencesEditor::ShouldApplyChangesImmediately()` is a platform constant; it is the
  `live : Bool` parameter.
-/

namespace Poedit

/-! ## Data model -/

/-- Modelled from the spec: the `Extractor` record declared in `extractor.h` (not part of
the sources at hand), "a fixed tuple of six string fields".  The field names are the ones
`EditExtractor` reads and writes. -/
structure Extractor where
  Name : String
  Extensions : String
  Command : String
  KeywordItem : String
  FileItem : String
  CharsetItem : String
deriving DecidableEq

/-- The default-constructed record `Extractor info;`: six empty strings. -/
def Extractor.blank : Extractor := ⟨"", "", "", "", "", ""⟩

/-- The collection `ExtractorsDB` with its public member `Data`. -/
structure ExtractorsDB where
  Data : List Extractor
deriving DecidableEq

/-! ## Configuration store -/

/-- The six per-record fields of a stored extractor. -/
inductive ExtractorField where
  | name | extensions | command | keywordItem | fileItem | charsetItem
deriving DecidableEq

/-- Modelled from the spec: keys of the configuration store.  The extractor collection is
"keyed by a count plus per-index keys"; the concrete key spelling is left to the store. -/
inductive CfgKey where
  | named (key : String)
  | extractorCount
  | extractorField (index : Nat) (field : ExtractorField)
deriving DecidableEq

/-- Values held by the configuration store. -/
inductive CfgValue where
  | str (s : String)
  | bool (b : Bool)
  | num (n : Nat)
deriving DecidableEq

/-- The key-value configuration store (`*wxConfig::Get()`), newest binding first. -/
structure wxConfigBase where
  entries : List (CfgKey × CfgValue)
deriving DecidableEq

/-- Value bound to `key`, if any. -/
def wxConfigBase.find (cfg : wxConfigBase) (key : CfgKey) : Option CfgValue :=
  cfg.entries.lookup key

/-- Whether a key belongs to the stored extractor collection. -/
def CfgKey.isExtractorKey : CfgKey → Bool
  | .named _ => false
  | .extractorCount => true
  | .extractorField _ _ => true

/-- The six per-index bindings of record number `i`. -/
def recordEntries (i : Nat) (e : Extractor) : List (CfgKey × CfgValue) :=
  [ (.extractorField i .name, .str e.Name),
    (.extractorField i .extensions, .str e.Extensions),
    (.extractorField i .command, .str e.Command),
    (.extractorField i .keywordItem, .str e.KeywordItem),
    (.extractorField i .fileItem, .str e.FileItem),
    (.extractorField i .charsetItem, .str e.CharsetItem) ]

/-- Bindings of a run of records numbered from `start`. -/
def collectionEntries (start : Nat) : List Extractor → List (CfgKey × CfgValue)
  | [] => []
  | e :: es => recordEntries start e ++ collectionEntries (start + 1) es

/-- Modelled from the spec: `ExtractorsDB::Write` of `extractor.cpp` (absent from the
sources at hand): "writes the ordered record list back, overwriting any prior content",
as a count plus per-index keys.  Bindings that are not extractor keys are kept. -/
def ExtractorsDB.Write (db : ExtractorsDB) (cfg : wxConfigBase) : wxConfigBase :=
  ⟨(CfgKey.extractorCount, CfgValue.num db.Data.length) ::
    (collectionEntries 0 db.Data ++ cfg.entries.filter (fun kv => !kv.1.isExtractorKey))⟩

/-- One string field of stored record `i`; `none` when missing or not a string. -/
def readField (cfg : wxConfigBase) (i : Nat) (f : ExtractorField) : Option String :=
  match cfg.find (.extractorField i f) with
  | some (.str s) => some s
  | _ => none

/-- Stored record `i`; `none` when one of its six fields is missing or malformed. -/
def readRecord (cfg : wxConfigBase) (i : Nat) : Option Extractor :=
  match readField cfg i .name, readField cfg i .extensions, readField cfg i .command,
        readField cfg i .keywordItem, readField cfg i .fileItem, readField cfg i .charsetItem with
  | some n, some x, some c, some k, some f, some cs => some ⟨n, x, c, k, f, cs⟩
  | _, _, _, _, _, _ => none

/-- The `count` stored records numbered from `start`, in index order. -/
def readRecords (cfg : wxConfigBase) (start : Nat) : Nat → Option (List Extractor)
  | 0 => some []
  | count + 1 =>
    match readRecord cfg start, readRecords cfg (start + 1) count with
    | some e, some es => some (e :: es)
    | _, _ => none

/-- Modelled from the spec: `ExtractorsDB::Read` of `extractor.cpp` (absent from the
sources at hand): "reads the ordered record list from the configuration store; absent
store produces an empty collection"; "missing or malformed persisted records: treated as
no records".  The previous content of the collection is replaced. -/
def ExtractorsDB.Read (_db : ExtractorsDB) (cfg : wxConfigBase) : ExtractorsDB :=
  match cfg.find .extractorCount with
  | some (.num n) =>
    match readRecords cfg 0 n with
    | some records => ⟨records⟩
    | none => ⟨[]⟩
  | _ => ⟨[]⟩

/-! ## Toolkit controls -/

/-- The toolkit constant `wxNOT_FOUND`. -/
def wxNOT_FOUND : Int := -1

/-- A push button, reduced to its enabled flag. -/
structure wxButton where
  enabled : Bool
deriving DecidableEq

/-- Model of `wxWindow::Enable` on a button. -/
def wxButton.Enable (_b : wxButton) (enable : Bool) : wxButton := ⟨enable⟩

/-- A single-selection list box: its strings, the selected index (`wxNOT_FOUND` when
nothing is selected) and its enabled flag. -/
structure wxListBox where
  items : List String
  selection : Int
  enabled : Bool
deriving DecidableEq

/-- Model of `wxItemContainer::IsValid`: `n` denotes an existing item. -/
def wxListBox.IsValid (lb : wxListBox) (n : Int) : Bool :=
  decide (0 ≤ n) && decide (n < (lb.items.length : Int))

/-- Model of `wxItemContainer::Append`: adds a string at the end; the selection is untouched. -/
def wxListBox.Append (lb : wxListBox) (s : String) : wxListBox :=
  { lb with items := lb.items ++ [s] }

/-- Model of `wxListBox::GetSelection`. -/
def wxListBox.GetSelection (lb : wxListBox) : Int := lb.selection

/-- Model of `wxListBox::SetSelection`: selects item `n`, or nothing for `wxNOT_FOUND`; any other
index fails the toolkit's range check and is ignored. -/
def wxListBox.SetSelection (lb : wxListBox) (n : Int) : wxListBox :=
  if n = wxNOT_FOUND || lb.IsValid n then { lb with selection := n } else lb

/-- Model of `wxItemContainer::SetString`: replaces the label of item `n`, keeping the selection; an
index that fails the toolkit's range check is ignored. -/
def wxListBox.SetString (lb : wxListBox) (n : Int) (s : String) : wxListBox :=
  if lb.IsValid n then { lb with items := lb.items.set n.toNat s } else lb

/-- Model of `wxItemContainer::Delete`: removes item `n`.  A selected item that is removed leaves
nothing selected, a selection below it moves up by one; an index that fails the toolkit's
range check is ignored. -/
def wxListBox.Delete (lb : wxListBox) (n : Int) : wxListBox :=
  if lb.IsValid n then
    { lb with
      items := lb.items.eraseIdx n.toNat
      selection :=
        if lb.selection = n then wxNOT_FOUND
        else if n < lb.selection then lb.selection - 1
        else lb.selection }
  else lb

/-- Model of `wxWindow::Enable` on the list box. -/
def wxListBox.Enable (lb : wxListBox) (enable : Bool) : wxListBox :=
  { lb with enabled := enable }

/-- Model of `std::vector::operator[]` with an `int` index; `none` outside `[0, size)`. -/
def vectorAt {α : Type} (v : List α) (i : Int) : Option α :=
  if 0 ≤ i then v[i.toNat]? else none

/-- Model of `v.erase(v.begin() + i)`; `none` outside `[0, size)`. -/
def vectorErase {α : Type} (v : List α) (i : Int) : Option (List α) :=
  if 0 ≤ i ∧ i < (v.length : Int) then some (v.eraseIdx i.toNat) else none

/-! ## The edit dialog -/

/-- The six text controls of the `edit_extractor` dialog, by their resource names. -/
structure EditDialog where
  extractor_language : String
  extractor_extensions : String
  extractor_command : String
  extractor_keywords : String
  extractor_files : String
  extractor_charset : String
deriving DecidableEq

/-- Model of `wxTextEntry::IsEmpty` on a text control holding `value`. -/
def wxTextCtrl.IsEmpty (value : String) : Bool := decide (value = "")

/-- The `wxEVT_UPDATE_UI` handler bound to `wxID_OK` in `EditExtractor`: the argument it
passes to `e.Enable`. -/
def EditDialog.okEnabled (d : EditDialog) : Bool :=
  !wxTextCtrl.IsEmpty d.extractor_language &&
  !wxTextCtrl.IsEmpty d.extractor_extensions &&
  !wxTextCtrl.IsEmpty d.extractor_command &&
  !wxTextCtrl.IsEmpty d.extractor_files

/-- How the modal edit dialog ended: `confirmed d` is `retcode == wxID_OK` with `d` the
content of the text controls at that moment, `cancelled` is any other return code. -/
inductive DialogResult where
  | confirmed (d : EditDialog)
  | cancelled
deriving DecidableEq

/-! ## The page -/

/-- Calls of the two virtual transfer functions, recorded in call order; `SaveValues`
carries the collection it hands to `ExtractorsDB::Write`. -/
inductive Call where
  | InitValues
  | SaveValues (data : List Extractor)
deriving DecidableEq

/-- Members of `ExtractorsPageWindow`, with `m_inTransfer` of its base `PrefsPanel`. -/
structure ExtractorsPageWindow where
  m_inTransfer : Bool
  m_extractors : ExtractorsDB
  m_list : wxListBox
  m_new : wxButton
  m_edit : wxButton
  m_delete : wxButton
deriving DecidableEq

/-- The page together with what it acts on: the global configuration object and the
record of transfer calls made so far. -/
structure World where
  config : wxConfigBase
  page : ExtractorsPageWindow
  calls : List Call
deriving DecidableEq

/-- The page as its constructor leaves it: empty list box, every control enabled, empty
collection, no transfer in progress. -/
def ExtractorsPageWindow.create : ExtractorsPageWindow :=
  { m_inTransfer := false
    m_extractors := ⟨[]⟩
    m_list := ⟨[], wxNOT_FOUND, true⟩
    m_new := ⟨true⟩
    m_edit := ⟨true⟩
    m_delete := ⟨true⟩ }

/-- A freshly constructed page over a given configuration store. -/
def World.create (cfg : wxConfigBase) : World :=
  { config := cfg, page := ExtractorsPageWindow.create, calls := [] }

/-- Model of `ExtractorsPageWindow::InitValues`. -/
def InitValues (w : World) : World :=
  let db := w.page.m_extractors.Read w.config
  let lb := db.Data.foldl (fun l item => l.Append item.Name) w.page.m_list
  let page := { w.page with m_extractors := db, m_list := lb }
  let page :=
    if db.Data.isEmpty then
      { page with m_edit := page.m_edit.Enable false, m_delete := page.m_delete.Enable false }
    else
      { page with m_list := page.m_list.SetSelection 0 }
  { w with page := page, calls := w.calls ++ [Call.InitValues] }

/-- Model of `ExtractorsPageWindow::SaveValues`. -/
def SaveValues (w : World) : World :=
  { w with
    config := w.page.m_extractors.Write w.config
    calls := w.calls ++ [Call.SaveValues w.page.m_extractors.Data] }

/-- Model of `PrefsPanel::TransferDataToWindow` on the extractors page (the final `Fit()` only
re-lays out the window). -/
def TransferDataToWindow (w : World) : Bool × World :=
  if w.page.m_inTransfer then (false, w)
  else
    let w := { w with page := { w.page with m_inTransfer := true } }
    let w := InitValues w
    let w := { w with page := { w.page with m_inTransfer := false } }
    (true, w)

/-- Model of `PrefsPanel::TransferDataFromWindow` on the extractors page. -/
def TransferDataFromWindow (w : World) : Bool × World :=
  if w.page.m_inTransfer then (false, w)
  else
    let w := { w with page := { w.page with m_inTransfer := true } }
    let w := SaveValues w
    let w := { w with page := { w.page with m_inTransfer := false } }
    (true, w)

/-- The record the completion lambda of `EditExtractor` builds from the text controls. -/
def EditDialog.toExtractor (d : EditDialog) : Extractor :=
  { Name := d.extractor_language
    Extensions := d.extractor_extensions
    Command := d.extractor_command
    KeywordItem := d.extractor_keywords
    FileItem := d.extractor_files
    CharsetItem := d.extractor_charset }

/-- The initial content of the dialog: the fields of `m_extractors.Data[num]`. -/
def EditDialog.populate (nfo : Extractor) : EditDialog :=
  { extractor_language := nfo.Name
    extractor_extensions := nfo.Extensions
    extractor_command := nfo.Command
    extractor_keywords := nfo.KeywordItem
    extractor_files := nfo.FileItem
    extractor_charset := nfo.CharsetItem }

/-- Model of `ExtractorsPageWindow::EditExtractor(num, completionHandler)`: reads
`m_extractors.Data[num]` to fill the dialog (`_shown` is what the user starts from; what the
user leaves in the controls is carried by `result`), and when the dialog ends with
`wxID_OK` overwrites that record and the list entry; then runs the completion handler. -/
def EditExtractor (w : World) (num : Int) (result : DialogResult)
    (completionHandler : Bool → World → Option World) : Option World :=
  match vectorAt w.page.m_extractors.Data num with
  | none => none
  | some nfo =>
    let _shown := EditDialog.populate nfo
    match result with
    | .confirmed d =>
      let nfo := d.toExtractor
      let page :=
        { w.page with
          m_extractors := ⟨w.page.m_extractors.Data.set num.toNat nfo⟩
          m_list := w.page.m_list.SetString num nfo.Name }
      completionHandler true { w with page := page }
    | .cancelled => completionHandler false w

/-- Model of `ExtractorsPageWindow::OnNewExtractor`. -/
def OnNewExtractor (live : Bool) (w : World) (result : DialogResult) : Option World :=
  let info := Extractor.blank
  let page :=
    { w.page with
      m_extractors := ⟨w.page.m_extractors.Data ++ [info]⟩
      m_list := w.page.m_list.Append "" }
  let index : Int := (page.m_extractors.Data.length : Int) - 1
  EditExtractor { w with page := page } index result (fun added w =>
    let after : Option World :=
      if added then
        some { w with page :=
          { w.page with m_edit := w.page.m_edit.Enable true,
                        m_delete := w.page.m_delete.Enable true } }
      else
        let lb := w.page.m_list.Delete index
        match vectorErase w.page.m_extractors.Data index with
        | none => none
        | some data => some { w with page := { w.page with m_list := lb, m_extractors := ⟨data⟩ } }
    after.map (fun w => if live then (TransferDataFromWindow w).2 else w))

/-- Model of `ExtractorsPageWindow::OnEditExtractor`. -/
def OnEditExtractor (live : Bool) (w : World) (result : DialogResult) : Option World :=
  EditExtractor w w.page.m_list.GetSelection result (fun changed w =>
    some (if changed && live then (TransferDataFromWindow w).2 else w))

/-- Model of `ExtractorsPageWindow::OnDeleteExtractor`. -/
def OnDeleteExtractor (live : Bool) (w : World) : Option World :=
  let index := w.page.m_list.GetSelection
  match vectorErase w.page.m_extractors.Data index with
  | none => none
  | some data =>
    let lb := w.page.m_list.Delete index
    let lb := if data.isEmpty then (lb.Enable false).Enable false else lb
    let w := { w with page := { w.page with m_extractors := ⟨data⟩, m_list := lb } }
    some (if live then (TransferDataFromWindow w).2 else w)

/-! ## User sessions -/

/-- What can happen to the page between two idle moments. -/
inductive Op where
  | new (result : DialogResult)
  | edit (result : DialogResult)
  | delete
  | select (i : Nat)
  | commit
deriving DecidableEq

/-- Whether the dialog can end this way: `wxID_OK` needs the OK button enabled. -/
def DialogResult.possible : DialogResult → Bool
  | .confirmed d => d.okEnabled
  | .cancelled => true

/-- Whether the user interface offers the action: a button click needs the button
enabled, a dialog result must be possible, a click in the list needs the list enabled and
an existing item; the host may commit the panel at any time. -/
def Op.offered (w : World) : Op → Bool
  | .new r => w.page.m_new.enabled && r.possible
  | .edit r => w.page.m_edit.enabled && r.possible
  | .delete => w.page.m_delete.enabled
  | .select i => w.page.m_list.enabled && decide (i < w.page.m_list.items.length)
  | .commit => true

/-- The handler run for an action. -/
def Op.handle (live : Bool) (w : World) : Op → Option World
  | .new r => OnNewExtractor live w r
  | .edit r => OnEditExtractor live w r
  | .delete => OnDeleteExtractor live w
  | .select i => some { w with page := { w.page with m_list := w.page.m_list.SetSelection i } }
  | .commit => some (TransferDataFromWindow w).2

/-- One step of a session; `none` when the action is not offered or the handler leaves
defined behaviour. -/
def step (live : Bool) (w : World) (op : Op) : Option World :=
  if op.offered w then op.handle live w else none

/-- A whole session, left to right. -/
def run (live : Bool) : World → List Op → Option World
  | w, [] => some w
  | w, op :: ops =>
    match step live w op with
    | none => none
    | some w => run live w ops

/-- A sequence of handler invocations, left to right, whether or not the user interface
would offer them; `none` when a handler leaves defined behaviour. -/
def runHandlers (live : Bool) : World → List Op → Option World
  | w, [] => some w
  | w, op :: ops =>
    match op.handle live w with
    | none => none
    | some w => runHandlers live w ops

/-- The visual list mirrors the collection: same names in the same order. -/
def InSync (w : World) : Prop :=
  w.page.m_list.items = w.page.m_extractors.Data.map (fun e => e.Name)

instance (w : World) : Decidable (InSync w) := by unfold InSync; infer_instance

/-- A record whose four required fields (name, extensions, command, file item) are all
non-empty; the keyword and charset items are unconstrained. -/
def Extractor.Complete (e : Extractor) : Prop :=
  e.Name ≠ "" ∧ e.Extensions ≠ "" ∧ e.Command ≠ "" ∧ e.FileItem ≠ ""

instance (e : Extractor) : Decidable e.Complete := by
  unfold Extractor.Complete
  infer_instance

/-- The step from `w` to `w'` ended with one `SaveValues`: the store is the old one with
the collection of `w'` written to it, and that call is the only one added. -/
def SavedBy (w w' : World) : Prop :=
  w'.config = w'.page.m_extractors.Write w.config ∧
  w'.calls = w.calls ++ [Call.SaveValues w'.page.m_extractors.Data]

/-- The step from `w` to `w'` did not touch the store and made no transfer call. -/
def StoreUntouched (w w' : World) : Prop :=
  w'.config = w.config ∧ w'.calls = w.calls

/-! ## The base panel `PrefsPanel` and its transfer guard -/

/-- The two public transfer methods of `PrefsPanel`. -/
inductive Transfer where
  | toWindow
  | fromWindow
deriving DecidableEq

/-- The two pure virtual functions of `PrefsPanel`. -/
inductive Virtual where
  | InitValues
  | SaveValues
deriving DecidableEq

/-- A `PrefsPanel` object: the private flag `m_inTransfer`, everything the overrides of a
derived class can reach (its members, its controls, the store), and the record of the
calls of the virtual functions made so far, in call order. -/
structure PrefsPanel (σ : Type) where
  m_inTransfer : Bool
  derived : σ
  invoked : List Virtual
deriving DecidableEq

/-- The body of an override of `InitValues` or `SaveValues`, as a program over the state
it can reach: it may change that state, look at it, and call back into one of the two
transfer methods (as happens when updating a control fires an event bound to
`TransferDataFromWindow`) and go on according to the returned flag.  The private
`m_inTransfer` is out of its reach. -/
inductive Body (σ : Type) where
  | done : Body σ
  | update (f : σ → σ) (next : Body σ) : Body σ
  | inspect (next : σ → Body σ) : Body σ
  | call (t : Transfer) (next : Bool → Body σ) : Body σ

/-- A class derived from `PrefsPanel`: its two overrides. -/
structure PrefsPanelClass (σ : Type) where
  InitValues : Body σ
  SaveValues : Body σ

/-- Runs a body from a panel state; `method` is how a call of a transfer method made from
inside the body runs. -/
def Body.exec {σ : Type} (method : Transfer → PrefsPanel σ → Option (Bool × PrefsPanel σ)) :
    Body σ → PrefsPanel σ → Option (PrefsPanel σ)
  | .done, p => some p
  | .update f next, p => next.exec method { p with derived := f p.derived }
  | .inspect next, p => (next p.derived).exec method p
  | .call t next, p =>
    match method t p with
    | none => none
    | some (r, p) => (next r).exec method p

/-- Entering a virtual function: the call is recorded. -/
def PrefsPanel.enter {σ : Type} (p : PrefsPanel σ) (v : Virtual) : PrefsPanel σ :=
  { p with invoked := p.invoked ++ [v] }

/-- Model of `PrefsPanel::TransferDataToWindow`; `InitValues` is how the override runs from
a given panel state (the final `Fit()` only re-lays out the window). -/
def PrefsPanel.TransferDataToWindow {σ : Type}
    (InitValues : PrefsPanel σ → Option (PrefsPanel σ)) (p : PrefsPanel σ) :
    Option (Bool × PrefsPanel σ) :=
  if p.m_inTransfer then some (false, p)
  else
    let p := { p with m_inTransfer := true }
    match InitValues p with
    | none => none
    | some p => some (true, { p with m_inTransfer := false })

/-- Model of `PrefsPanel::TransferDataFromWindow`; `SaveValues` is how the override runs
from a given panel state. -/
def PrefsPanel.TransferDataFromWindow {σ : Type}
    (SaveValues : PrefsPanel σ → Option (PrefsPanel σ)) (p : PrefsPanel σ) :
    Option (Bool × PrefsPanel σ) :=
  if p.m_inTransfer then some (false, p)
  else
    let p := { p with m_inTransfer := true }
    match SaveValues p with
    | none => none
    | some p => some (true, { p with m_inTransfer := false })

/-- The two transfer methods of a derived class with the virtual calls resolved; `fuel`
bounds the nesting of transfer calls made from inside the overrides, `none` when it runs
out. -/
def PrefsPanel.method {σ : Type} (cls : PrefsPanelClass σ) :
    Nat → Transfer → PrefsPanel σ → Option (Bool × PrefsPanel σ)
  | 0, _, _ => none
  | fuel + 1, .toWindow, p =>
    PrefsPanel.TransferDataToWindow
      (fun q => cls.InitValues.exec (PrefsPanel.method cls fuel) (q.enter .InitValues)) p
  | fuel + 1, .fromWindow, p =>
    PrefsPanel.TransferDataFromWindow
      (fun q => cls.SaveValues.exec (PrefsPanel.method cls fuel) (q.enter .SaveValues)) p

/-- What a body leaves in the state it can reach when every transfer call it makes is
turned away with `false`. -/
def Body.turnedAway {σ : Type} : Body σ → σ → σ
  | .done, d => d
  | .update f next, d => next.turnedAway (f d)
  | .inspect next, d => (next d).turnedAway d
  | .call _ next, d => (next false).turnedAway d

/-- A derived class over a counter: `InitValues` adds one and, on the way, calls
`TransferDataFromWindow`, adding a hundred more should that call go through; `SaveValues`
adds ten and calls `TransferDataToWindow` in the same manner. -/
def countingClass : PrefsPanelClass Nat :=
  { InitValues :=
      .update (fun n => n + 1)
        (.call .fromWindow (fun r => if r then .update (fun n => n + 100) .done else .done))
    SaveValues :=
      .update (fun n => n + 10)
        (.call .toWindow (fun r => if r then .update (fun n => n + 100) .done else .done)) }

/-! ## The General page -/

/-- Model of `wxConfigBase::Read(key, defaultVal)` for strings: the stored string, or the
default when the key is absent or does not hold a string. -/
def wxConfigBase.Read (cfg : wxConfigBase) (key : String) (defaultVal : String) : String :=
  match cfg.find (.named key) with
  | some (.str s) => s
  | _ => defaultVal

/-- Model of `wxConfigBase::ReadBool(key, defaultVal)`: the stored flag, or the default
when the key is absent or does not hold a flag. -/
def wxConfigBase.ReadBool (cfg : wxConfigBase) (key : String) (defaultVal : Bool) : Bool :=
  match cfg.find (.named key) with
  | some (.bool b) => b
  | _ => defaultVal

/-- Model of `wxConfigBase::Write(key, value)`: binds the key, replacing an older
binding. -/
def wxConfigBase.Write (cfg : wxConfigBase) (key : String) (value : CfgValue) : wxConfigBase :=
  ⟨(CfgKey.named key, value) :: cfg.entries.filter (fun kv => kv.1 != CfgKey.named key)⟩

/-- A font as the page sees it: whether it `IsOk()` and its `GetNativeFontInfoDesc()`. -/
structure wxFont where
  ok : Bool
  nativeFontInfoDesc : String
deriving DecidableEq

/-- A drop-down choice: how many entries it offers and the selected index (`wxNOT_FOUND`
when nothing is selected). -/
structure wxChoice where
  count : Nat
  selection : Int
deriving DecidableEq

/-- Model of `wxChoice::SetSelection`: selects entry `n`, or nothing for `wxNOT_FOUND`; any
other index fails the toolkit's range check and is ignored. -/
def wxChoice.SetSelection (c : wxChoice) (n : Int) : wxChoice :=
  if n = wxNOT_FOUND || (decide (0 ≤ n) && decide (n < (c.count : Int)))
  then { c with selection := n } else c

/-- Model of `wxChoice::GetSelection`. -/
def wxChoice.GetSelection (c : wxChoice) : Int := c.selection

/-- What the General page takes from its surroundings: the two platform tests and the
toolkit's way of making a font from a stored description. -/
structure Platform where
  IsSpellcheckingAvailable : Bool
  ShouldApplyChangesImmediately : Bool
  fontFromDesc : String → wxFont

/-- The controls of `GeneralPageWindow`, by their resource names: text controls as their
value, check boxes as their state, font pickers as the selected font. -/
structure GeneralPageWindow where
  user_name : String
  user_email : String
  compile_mo : Bool
  show_summary : Bool
  focus_to_text : Bool
  comment_window_editable : Bool
  keep_crlf : Bool
  enable_spellchecking : Bool
  use_font_list : Bool
  use_font_text : Bool
  font_list : wxFont
  font_text : wxFont
  crlf_format : wxChoice

/-- The table `formats` of `GeneralPageWindow::SaveValues`. -/
def formats : List String := ["unix", "win"]

/-- Model of `GeneralPageWindow::InitValues`. -/
def GeneralPageWindow.InitValues (env : Platform) (page : GeneralPageWindow)
    (cfg : wxConfigBase) : GeneralPageWindow :=
  let page := { page with user_name := cfg.Read "translator_name" "" }
  let page := { page with user_email := cfg.Read "translator_email" "" }
  let page := { page with compile_mo := cfg.ReadBool "compile_mo" true }
  let page := { page with show_summary := cfg.ReadBool "show_summary" false }
  let page := { page with focus_to_text := cfg.ReadBool "focus_to_text" false }
  let page :=
    { page with comment_window_editable := cfg.ReadBool "comment_window_editable" false }
  let page := { page with keep_crlf := cfg.ReadBool "keep_crlf" true }
  let page :=
    if env.IsSpellcheckingAvailable then
      { page with enable_spellchecking := cfg.ReadBool "enable_spellchecking" true }
    else page
  let page := { page with use_font_list := cfg.ReadBool "custom_font_list_use" false }
  let page := { page with use_font_text := cfg.ReadBool "custom_font_text_use" false }
  let page := { page with font_list := env.fontFromDesc (cfg.Read "custom_font_list_name" "") }
  let page := { page with font_text := env.fontFromDesc (cfg.Read "custom_font_text_name" "") }
  let format := cfg.Read "crlf_format" "unix"
  let sel : Int := if format = "win" then 1 else 0
  { page with crlf_format := page.crlf_format.SetSelection sel }

/-- Model of `GeneralPageWindow::SaveValues`: the store after the writes, and whether
`PoeditFrame::UpdateAllAfterPreferencesChange` was called; `none` when `formats` is
indexed outside its two entries. -/
def GeneralPageWindow.SaveValues (env : Platform) (page : GeneralPageWindow)
    (cfg : wxConfigBase) : Option (wxConfigBase × Bool) :=
  let cfg := cfg.Write "translator_name" (.str page.user_name)
  let cfg := cfg.Write "translator_email" (.str page.user_email)
  let cfg := cfg.Write "compile_mo" (.bool page.compile_mo)
  let cfg := cfg.Write "show_summary" (.bool page.show_summary)
  let cfg := cfg.Write "focus_to_text" (.bool page.focus_to_text)
  let cfg := cfg.Write "comment_window_editable" (.bool page.comment_window_editable)
  let cfg := cfg.Write "keep_crlf" (.bool page.keep_crlf)
  let cfg :=
    if env.IsSpellcheckingAvailable then
      cfg.Write "enable_spellchecking" (.bool page.enable_spellchecking)
    else cfg
  let listFont := page.font_list
  let textFont := page.font_text
  let cfg := cfg.Write "custom_font_list_use" (.bool (listFont.ok && page.use_font_list))
  let cfg := cfg.Write "custom_font_text_use" (.bool (textFont.ok && page.use_font_text))
  let cfg :=
    if listFont.ok then cfg.Write "custom_font_list_name" (.str listFont.nativeFontInfoDesc)
    else cfg
  let cfg :=
    if textFont.ok then cfg.Write "custom_font_text_name" (.str textFont.nativeFontInfoDesc)
    else cfg
  match vectorAt formats page.crlf_format.GetSelection with
  | none => none
  | some format =>
    let cfg := cfg.Write "crlf_format" (.str format)
    some (cfg, !env.ShouldApplyChangesImmediately)

/-- Load then save: `InitValues` from a store followed by `SaveValues` into it. -/
def GeneralPageWindow.loadThenSave (env : Platform) (page : GeneralPageWindow)
    (cfg : wxConfigBase) : Option (wxConfigBase × Bool) :=
  (page.InitValues env cfg).SaveValues env cfg

/-! ## Learning from files on the Translation Memory page -/

/-- Calls the import makes on the progress dialog, on the translation-memory writer and on
the page, in call order. -/
inductive TMCall where
  | Update (value : Nat)
  | Insert (path : String)
  | Pulse
  | Commit
  | UpdateStats
deriving DecidableEq

/-- State of one import: the range given to the progress dialog, the local `step`, and
the calls made so far. -/
structure ImportRun where
  maximum : Nat
  step : Nat
  log : List TMCall
deriving DecidableEq

/-- The `for` loop of `TMPageWindow::OnImportIntoTM` over the paths still to do.  `IsOk`
tells whether the catalog loaded from a path is usable; `Update` is what
`progress.Update(value)` answers, false once the user has asked to abort. -/
def importLoop (IsOk : String → Bool) (Update : Nat → Bool) :
    List String → ImportRun → ImportRun
  | [], r => r
  | path :: rest, r =>
    let r := { r with step := r.step + 1 }
    let r := { r with log := r.log ++ [TMCall.Update r.step] }
    if !Update r.step then r
    else
      let r := if IsOk path then { r with log := r.log ++ [TMCall.Insert path] } else r
      let r := { r with step := r.step + 1 }
      let r := { r with log := r.log ++ [TMCall.Update r.step] }
      if !Update r.step then r
      else importLoop IsOk Update rest r

/-- Model of the completion lambda of `TMPageWindow::OnImportIntoTM`, given how the file
dialog ended and the paths it returned; `none` when the dialog was dismissed and nothing
is imported. -/
def OnImportIntoTM (IsOk : String → Bool) (Update : Nat → Bool) (retcodeOK : Bool)
    (paths : List String) : Option ImportRun :=
  if !retcodeOK then none
  else
    let r : ImportRun := { maximum := paths.length * 2 + 1, step := 0, log := [] }
    let r := importLoop IsOk Update paths r
    let r := { r with log := r.log ++ [TMCall.Pulse] }
    let r := { r with log := r.log ++ [TMCall.Commit] }
    some { r with log := r.log ++ [TMCall.UpdateStats] }

/-- The values passed to `progress.Update`, in call order. -/
def updatesOf (log : List TMCall) : List Nat :=
  log.filterMap (fun c => match c with | .Update v => some v | _ => none)

/-- The paths of the catalogs passed to `tm->Insert`, in call order. -/
def insertsOf (log : List TMCall) : List String :=
  log.filterMap (fun c => match c with | .Insert path => some path | _ => none)

/-! ## Concrete data used to exercise the theorems -/

/-- An empty configuration store. -/
def emptyStore : wxConfigBase := ⟨[]⟩

/-- A complete record. -/
def sampleRecord : Extractor :=
  ⟨"PHP", "*.php", "xgettext -o %o %K %F", "-k%k", "%f", "--from-code=%c"⟩

/-- Dialog content with the two optional fields left empty. -/
def sampleDialog : EditDialog := ⟨"X", "*.c", "xgettext", "", "%f", ""⟩

/-- Dialog content with every field filled in. -/
def otherDialog : EditDialog := ⟨"Lua", "*.lua", "xgettext -L Lua", "-k%k", "%f", "%c"⟩

/-- A store holding exactly `sampleRecord`. -/
def oneRecordStore : wxConfigBase := ExtractorsDB.Write ⟨[sampleRecord]⟩ emptyStore

/-- The page shown over the empty store. -/
def emptyPage : World := InitValues (World.create emptyStore)

/-- The page shown over `oneRecordStore`. -/
def onePage : World := InitValues (World.create oneRecordStore)

/-- A session that adds, selects, edits and deletes. -/
def sampleSession : List Op :=
  [.new (.confirmed sampleDialog), .select 1, .edit (.confirmed otherDialog), .select 0, .delete]

/-- Where `sampleSession` leaves `onePage` when changes are not applied live. -/
def sampleSessionEnd : World :=
  { config := oneRecordStore
    page :=
      { m_inTransfer := false
        m_extractors := ⟨[otherDialog.toExtractor]⟩
        m_list := ⟨["Lua"], wxNOT_FOUND, true⟩
        m_new := ⟨true⟩
        m_edit := ⟨true⟩
        m_delete := ⟨true⟩ }
    calls := [Call.InitValues] }

/-- The page over `oneRecordStore` after adding a second record and selecting it. -/
def twoPage : World :=
  { config := oneRecordStore
    page :=
      { m_inTransfer := false
        m_extractors := ⟨[sampleRecord, sampleDialog.toExtractor]⟩
        m_list := ⟨["PHP", "X"], 1, true⟩
        m_new := ⟨true⟩
        m_edit := ⟨true⟩
        m_delete := ⟨true⟩ }
    calls := [Call.InitValues] }

/-- Where `sampleSession` leaves `onePage` when changes are applied live. -/
def liveSessionEnd : World :=
  { config := ExtractorsDB.Write ⟨[otherDialog.toExtractor]⟩ emptyStore
    page := sampleSessionEnd.page
    calls :=
      [ Call.InitValues,
        Call.SaveValues [sampleRecord, sampleDialog.toExtractor],
        Call.SaveValues [sampleRecord, otherDialog.toExtractor],
        Call.SaveValues [otherDialog.toExtractor] ] }

/-- The page over `oneRecordStore` after its only record was deleted. -/
def emptiedPage : World :=
  { config := oneRecordStore
    page :=
      { m_inTransfer := false
        m_extractors := ⟨[]⟩
        m_list := ⟨[], wxNOT_FOUND, false⟩
        m_new := ⟨true⟩
        m_edit := ⟨true⟩
        m_delete := ⟨true⟩ }
    calls := [Call.InitValues] }

/-- The page over the empty store after a first record was added and confirmed. -/
def firstAddedPage : World :=
  { config := emptyStore
    page :=
      { m_inTransfer := false
        m_extractors := ⟨[sampleDialog.toExtractor]⟩
        m_list := ⟨["X"], wxNOT_FOUND, true⟩
        m_new := ⟨true⟩
        m_edit := ⟨true⟩
        m_delete := ⟨true⟩ }
    calls := [Call.InitValues] }

/-- A platform without live-apply whose fonts are always usable. -/
def samplePlatform : Platform :=
  { IsSpellcheckingAvailable := true
    ShouldApplyChangesImmediately := false
    fontFromDesc := fun desc => ⟨true, desc⟩ }

/-- A General page as loaded from its resource: empty controls, a two-entry choice with
nothing selected. -/
def sampleGeneralPage : GeneralPageWindow :=
  { user_name := "", user_email := ""
    compile_mo := false, show_summary := false, focus_to_text := false
    comment_window_editable := false, keep_crlf := false, enable_spellchecking := false
    use_font_list := false, use_font_text := false
    font_list := ⟨false, ""⟩, font_text := ⟨false, ""⟩
    crlf_format := ⟨2, wxNOT_FOUND⟩ }

/-- A store left by an old version, with a line-ending format no longer offered. -/
def oldStore : wxConfigBase := ⟨[(CfgKey.named "crlf_format", CfgValue.str "mac")]⟩

/-- A progress dialog on which the user aborts at the fourth update. -/
def sampleUpdate (v : Nat) : Bool := decide (v < 4)

/-- A file system in which one catalog does not load. -/
def sampleIsOk (path : String) : Bool := decide (path ≠ "broken.po")

/-! ## Basic facts about the embedding -/

/-- The function `TransferDataFromWindow` never changes the page members: `m_inTransfer` is restored
and `SaveValues` only touches the store. -/
theorem TransferDataFromWindow_page (w : World) :
    (TransferDataFromWindow w).2.page = w.page := by
  unfold TransferDataFromWindow SaveValues
  cases h : w.page.m_inTransfer
  · simp only [Bool.false_eq_true, if_false]
    rw [← h]
  · simp

/-- With no transfer in progress `TransferDataFromWindow` is `SaveValues` and reports
success. -/
theorem TransferDataFromWindow_idle (w : World) (h : w.page.m_inTransfer = false) :
    TransferDataFromWindow w = (true, SaveValues w) := by
  unfold TransferDataFromWindow SaveValues
  simp only [h, Bool.false_eq_true, if_false]
  congr 2
  exact h ▸ rfl

/-- Items of the list box after appending the names of `data`. -/
theorem foldl_Append_items (data : List Extractor) (lb : wxListBox) :
    (data.foldl (fun l item => l.Append item.Name) lb).items
      = lb.items ++ data.map (fun e => e.Name) := by
  induction data generalizing lb with
  | nil => simp
  | cons e es ih =>
    simp only [List.foldl_cons, List.map_cons]
    rw [ih]
    simp [wxListBox.Append]

/-- Indexing a vector at a non-negative `int`. -/
theorem vectorAt_natCast {α : Type} (v : List α) (n : Nat) :
    vectorAt v (n : Int) = v[n]? := by
  simp [vectorAt]

/-- Erasing from a vector at a non-negative `int`. -/
theorem vectorErase_natCast {α : Type} (v : List α) (n : Nat) :
    vectorErase v (n : Int) = if n < v.length then some (v.eraseIdx n) else none := by
  simp [vectorErase]

/-- The toolkit's range check at a non-negative `int`. -/
theorem IsValid_natCast (lb : wxListBox) (n : Nat) :
    lb.IsValid (n : Int) = decide (n < lb.items.length) := by
  simp [wxListBox.IsValid]

/-- The index computed by `OnNewExtractor` after `push_back`. -/
theorem newIndex_eq (n : Nat) : ((n + 1 : Nat) : Int) - 1 = (n : Int) := by
  simp

/-- Removing the element just pushed gives the vector back. -/
theorem eraseIdx_concat_length {α : Type} (l : List α) (x : α) :
    (l ++ [x]).eraseIdx l.length = l := by
  rw [List.eraseIdx_append_of_length_le (Nat.le_refl _)]
  simp

/-- Overwriting the element just pushed. -/
theorem set_concat_length {α : Type} (l : List α) (x y : α) :
    (l ++ [x]).set l.length y = l ++ [y] := by
  rw [List.set_append_right _ _ (Nat.le_refl _)]
  simp

/-- Mapping commutes with `eraseIdx`. -/
theorem map_eraseIdx_eq {α β : Type} (f : α → β) (l : List α) (i : Nat) :
    (l.eraseIdx i).map f = (l.map f).eraseIdx i := by
  induction l generalizing i with
  | nil => simp
  | cons a l ih =>
    cases i with
    | zero => simp
    | succ i => simp [ih]

/-- Closed form of `OnNewExtractor` when the dialog is confirmed: it always returns. -/
theorem OnNewExtractor_confirmed (live : Bool) (w : World) (d : EditDialog) :
    OnNewExtractor live w (.confirmed d) =
      some (
        let w1 : World :=
          { w with page :=
            { w.page with
              m_extractors := ⟨w.page.m_extractors.Data ++ [d.toExtractor]⟩
              m_list := (w.page.m_list.Append "").SetString
                (w.page.m_extractors.Data.length : Int) d.extractor_language
              m_edit := ⟨true⟩
              m_delete := ⟨true⟩ } }
        if live then (TransferDataFromWindow w1).2 else w1) := by
  unfold OnNewExtractor EditExtractor
  simp only [List.length_append, List.length_singleton, newIndex_eq, vectorAt_natCast,
    Int.toNat_ofNat, set_concat_length, List.getElem?_concat_length, Option.map_some',
    wxButton.Enable, if_true]
  rfl

/-- Closed form of `OnNewExtractor` when the dialog is cancelled: it always returns. -/
theorem OnNewExtractor_cancelled (live : Bool) (w : World) :
    OnNewExtractor live w .cancelled =
      some (
        let w1 : World :=
          { w with page :=
            { w.page with
              m_list := (w.page.m_list.Append "").Delete (w.page.m_extractors.Data.length : Int) } }
        if live then (TransferDataFromWindow w1).2 else w1) := by
  unfold OnNewExtractor EditExtractor
  simp only [List.length_append, List.length_singleton, newIndex_eq, vectorAt_natCast,
    vectorErase_natCast, Int.toNat_ofNat, eraseIdx_concat_length, List.getElem?_concat_length,
    Option.map_some', Nat.lt_succ_self, if_true, Bool.false_eq_true, if_false]

/-- Closed form of `OnEditExtractor` on a valid selection when the dialog is confirmed. -/
theorem OnEditExtractor_confirmed (live : Bool) (w : World) (d : EditDialog) (i : Nat)
    (hsel : w.page.m_list.selection = (i : Int)) (hi : i < w.page.m_extractors.Data.length) :
    OnEditExtractor live w (.confirmed d) =
      some (
        let w1 : World :=
          { w with page :=
            { w.page with
              m_extractors := ⟨w.page.m_extractors.Data.set i d.toExtractor⟩
              m_list := w.page.m_list.SetString (i : Int) d.extractor_language } }
        if live then (TransferDataFromWindow w1).2 else w1) := by
  unfold OnEditExtractor EditExtractor
  simp only [wxListBox.GetSelection, hsel, vectorAt_natCast, List.getElem?_eq_getElem hi,
    Int.toNat_ofNat, Bool.true_and]
  rfl

/-- Closed form of `OnEditExtractor` on a valid selection when the dialog is cancelled. -/
theorem OnEditExtractor_cancelled (live : Bool) (w : World) (i : Nat)
    (hsel : w.page.m_list.selection = (i : Int)) (hi : i < w.page.m_extractors.Data.length) :
    OnEditExtractor live w .cancelled = some w := by
  unfold OnEditExtractor EditExtractor
  simp [wxListBox.GetSelection, hsel, vectorAt_natCast, List.getElem?_eq_getElem hi]

/-- Closed form of `OnDeleteExtractor` on a valid selection. -/
theorem OnDeleteExtractor_valid (live : Bool) (w : World) (i : Nat)
    (hsel : w.page.m_list.selection = (i : Int)) (hi : i < w.page.m_extractors.Data.length) :
    OnDeleteExtractor live w =
      some (
        let w1 : World :=
          { w with page :=
            { w.page with
              m_extractors := ⟨w.page.m_extractors.Data.eraseIdx i⟩
              m_list :=
                if (w.page.m_extractors.Data.eraseIdx i).isEmpty
                then ((w.page.m_list.Delete (i : Int)).Enable false).Enable false
                else w.page.m_list.Delete (i : Int) } }
        if live then (TransferDataFromWindow w1).2 else w1) := by
  unfold OnDeleteExtractor
  simp only [wxListBox.GetSelection, hsel, vectorErase_natCast, hi, if_true, Int.toNat_ofNat]

/-! ## The visual list mirrors the collection -/

/-- The function `SetSelection` leaves the strings alone. -/
theorem SetSelection_items (lb : wxListBox) (n : Int) : (lb.SetSelection n).items = lb.items := by
  unfold wxListBox.SetSelection
  split <;> rfl

/-- The function `SetString` at a non-negative index acts as `List.set` on the strings. -/
theorem SetString_items (lb : wxListBox) (i : Nat) (s : String) :
    (lb.SetString (i : Int) s).items = lb.items.set i s := by
  unfold wxListBox.SetString
  rw [IsValid_natCast]
  by_cases h : i < lb.items.length
  · simp [h]
  · simp [h, List.set_eq_of_length_le (Nat.le_of_not_lt h)]

/-- The function `Delete` at a non-negative index acts as `List.eraseIdx` on the strings. -/
theorem Delete_items (lb : wxListBox) (i : Nat) :
    (lb.Delete (i : Int)).items = lb.items.eraseIdx i := by
  unfold wxListBox.Delete
  rw [IsValid_natCast]
  by_cases h : i < lb.items.length
  · simp [h]
  · simp [h, List.eraseIdx_of_length_le (Nat.le_of_not_lt h)]

/-- The optional save at the end of a handler leaves the page members alone. -/
theorem saveIf_page (live : Bool) (w : World) :
    (if live then (TransferDataFromWindow w).2 else w).page = w.page := by
  cases live
  · rfl
  · simpa using TransferDataFromWindow_page w

/-- A vector access that is defined was made at an index inside the vector. -/
theorem vectorAt_isSome {α : Type} {v : List α} {n : Int} {x : α} (h : vectorAt v n = some x) :
    ∃ i : Nat, n = (i : Int) ∧ i < v.length := by
  unfold vectorAt at h
  by_cases hn : 0 ≤ n
  · rw [if_pos hn] at h
    refine ⟨n.toNat, (Int.toNat_of_nonneg hn).symm, ?_⟩
    by_contra hlt
    rw [List.getElem?_eq_none (Nat.le_of_not_lt hlt)] at h
    cases h
  · rw [if_neg hn] at h
    cases h

/-- An erase that is defined was made at an index inside the vector. -/
theorem vectorErase_isSome {α : Type} {v w : List α} {n : Int} (h : vectorErase v n = some w) :
    ∃ i : Nat, n = (i : Int) ∧ i < v.length := by
  unfold vectorErase at h
  by_cases hn : 0 ≤ n ∧ n < (v.length : Int)
  · refine ⟨n.toNat, (Int.toNat_of_nonneg hn.1).symm, ?_⟩
    have := hn.2
    omega
  · rw [if_neg hn] at h
    cases h

/-- The function `OnEditExtractor` returns only when the selection is a valid index. -/
theorem OnEditExtractor_defined {live : Bool} {w w' : World} {r : DialogResult}
    (h : OnEditExtractor live w r = some w') :
    ∃ i : Nat, w.page.m_list.selection = (i : Int) ∧ i < w.page.m_extractors.Data.length := by
  unfold OnEditExtractor EditExtractor at h
  cases hv : vectorAt w.page.m_extractors.Data w.page.m_list.GetSelection with
  | none => rw [hv] at h; cases h
  | some x => exact vectorAt_isSome hv

/-- The function `OnDeleteExtractor` returns only when the selection is a valid index. -/
theorem OnDeleteExtractor_defined {live : Bool} {w w' : World}
    (h : OnDeleteExtractor live w = some w') :
    ∃ i : Nat, w.page.m_list.selection = (i : Int) ∧ i < w.page.m_extractors.Data.length := by
  unfold OnDeleteExtractor at h
  cases hv : vectorErase w.page.m_extractors.Data w.page.m_list.GetSelection with
  | none => simp only [hv] at h; cases h
  | some x => exact vectorErase_isSome hv

/-- The function `InitValues` on a page whose list box is still empty establishes the mirror. -/
theorem InSync_InitValues (w0 : World) (h : w0.page.m_list.items = []) :
    InSync (InitValues w0) := by
  unfold InSync InitValues
  dsimp only
  split
  · simp [foldl_Append_items, h]
  · simp [foldl_Append_items, h, SetSelection_items]

/-- Every handler keeps the mirror. -/
theorem InSync_handle (live : Bool) (w w' : World) (op : Op) (hs : InSync w)
    (h : op.handle live w = some w') : InSync w' := by
  unfold InSync at hs ⊢
  have hlen : w.page.m_list.items.length = w.page.m_extractors.Data.length := by
    rw [hs, List.length_map]
  cases op with
  | new r =>
    cases r with
    | confirmed d =>
      simp only [Op.handle, OnNewExtractor_confirmed, Option.some.injEq] at h
      subst h
      rw [saveIf_page]
      simp only [SetString_items, wxListBox.Append, ← hlen, set_concat_length]
      simp [hs, EditDialog.toExtractor]
    | cancelled =>
      simp only [Op.handle, OnNewExtractor_cancelled, Option.some.injEq] at h
      subst h
      rw [saveIf_page]
      simp only [Delete_items, wxListBox.Append, ← hlen, eraseIdx_concat_length]
      exact hs
  | edit r =>
    simp only [Op.handle] at h
    obtain ⟨i, hsel, hi⟩ := OnEditExtractor_defined h
    cases r with
    | confirmed d =>
      rw [OnEditExtractor_confirmed live w d i hsel hi, Option.some.injEq] at h
      subst h
      rw [saveIf_page]
      simp [SetString_items, hs, EditDialog.toExtractor]
    | cancelled =>
      rw [OnEditExtractor_cancelled live w i hsel hi, Option.some.injEq] at h
      subst h
      exact hs
  | delete =>
    simp only [Op.handle] at h
    obtain ⟨i, hsel, hi⟩ := OnDeleteExtractor_defined h
    rw [OnDeleteExtractor_valid live w i hsel hi, Option.some.injEq] at h
    subst h
    rw [saveIf_page]
    dsimp only
    split <;> simp [Delete_items, wxListBox.Enable, hs, map_eraseIdx_eq]
  | select i =>
    simp only [Op.handle, Option.some.injEq] at h
    subst h
    simpa [SetSelection_items] using hs
  | commit =>
    simp only [Op.handle, Option.some.injEq] at h
    subst h
    rw [TransferDataFromWindow_page]
    exact hs

/-- Every sequence of handler invocations keeps the mirror. -/
theorem InSync_runHandlers (live : Bool) (ops : List Op) (w w' : World) (hs : InSync w)
    (h : runHandlers live w ops = some w') : InSync w' := by
  induction ops generalizing w with
  | nil =>
    simp only [runHandlers, Option.some.injEq] at h
    subst h
    exact hs
  | cons op ops ih =>
    simp only [runHandlers] at h
    cases hstep : op.handle live w with
    | none => rw [hstep] at h; cases h
    | some w1 =>
      rw [hstep] at h
      exact ih w1 (InSync_handle live w w1 op hs hstep) h

/-- A session is in particular a sequence of handler invocations. -/
theorem runHandlers_of_run (live : Bool) (ops : List Op) (w w' : World)
    (h : run live w ops = some w') : runHandlers live w ops = some w' := by
  induction ops generalizing w with
  | nil => exact h
  | cons op ops ih =>
    simp only [run] at h
    cases hstep : step live w op with
    | none => rw [hstep] at h; cases h
    | some w1 =>
      rw [hstep] at h
      have hhandle : op.handle live w = some w1 := by
        unfold step at hstep
        split at hstep
        · exact hstep
        · cases hstep
      simp only [runHandlers, hhandle]
      exact ih w1 h

/-- C1: in every state reached from `InitValues` (run on an empty list box) by a sequence
of new / edit / delete handlers with the dialog confirmed or cancelled (and list clicks and
commits), whether or not the buttons were enabled and the confirmed values complete, the
visual list is exactly the list of `Name` fields of the collection, in order; so the two
have the same number of entries, at the end and after each operation on the way.  Sessions
of offered actions (`run`) are a special case of such sequences. -/
theorem C1_visual_list_mirrors_collection (live : Bool) (w0 : World) (ops : List Op) (w : World)
    (hempty : w0.page.m_list.items = [])
    (hrun : runHandlers live (InitValues w0) ops = some w) :
    (w.page.m_list.items = w.page.m_extractors.Data.map (fun e => e.Name) ∧
      w.page.m_list.items.length = w.page.m_extractors.Data.length) ∧
    (∀ k w1, runHandlers live (InitValues w0) (ops.take k) = some w1 →
      w1.page.m_list.items = w1.page.m_extractors.Data.map (fun e => e.Name) ∧
      w1.page.m_list.items.length = w1.page.m_extractors.Data.length) := by
  have hinit : InSync (InitValues w0) := InSync_InitValues w0 hempty
  have key : ∀ v : World, InSync v →
      v.page.m_list.items = v.page.m_extractors.Data.map (fun e => e.Name) ∧
      v.page.m_list.items.length = v.page.m_extractors.Data.length := by
    intro v hv
    refine ⟨hv, ?_⟩
    unfold InSync at hv
    rw [hv, List.length_map]
  refine ⟨key w (InSync_runHandlers live ops _ w hinit hrun), ?_⟩
  intro k w1 h1
  exact key w1 (InSync_runHandlers live _ _ w1 hinit h1)

/-- C1 on a concrete session over a one-record store. -/
theorem C1_visual_list_mirrors_collection_witness :
    (World.create oneRecordStore).page.m_list.items = [] ∧
    runHandlers false (InitValues (World.create oneRecordStore)) sampleSession
      = some sampleSessionEnd ∧
    (sampleSessionEnd.page.m_list.items
        = sampleSessionEnd.page.m_extractors.Data.map (fun e => e.Name) ∧
      sampleSessionEnd.page.m_list.items.length
        = sampleSessionEnd.page.m_extractors.Data.length) :=
  ⟨by decide, by decide,
    (C1_visual_list_mirrors_collection false (World.create oneRecordStore) sampleSession
      sampleSessionEnd (by decide) (by decide)).1⟩

/-! ## Adding a record -/

/-- Deleting the entry just appended gives the list box back when its selection was an
existing item or none. -/
theorem Delete_append_length (lb : wxListBox) (s : String)
    (hsel : lb.selection < (lb.items.length : Int)) :
    (lb.Append s).Delete (lb.items.length : Int) = lb := by
  unfold wxListBox.Delete
  rw [IsValid_natCast]
  have h1 : lb.selection ≠ (lb.items.length : Int) := by omega
  have h2 : ¬ ((lb.items.length : Int) < lb.selection) := by omega
  simp [wxListBox.Append, eraseIdx_concat_length, h1, h2]

/-- C2: on a page whose visual list has as many entries as the collection, `new()` followed
by cancelling the edit form returns, and leaves the collection and the strings of the
visual list exactly as they were (same length, same records, same order); the buttons are
untouched, and so is the whole list box when its selection was an existing item or none. -/
theorem C2_new_then_cancel_restores (live : Bool) (w : World)
    (hlen : w.page.m_list.items.length = w.page.m_extractors.Data.length) :
    ∃ w', OnNewExtractor live w .cancelled = some w' ∧
      w'.page.m_extractors = w.page.m_extractors ∧
      w'.page.m_extractors.Data.length = w.page.m_extractors.Data.length ∧
      w'.page.m_list.items = w.page.m_list.items ∧
      w'.page.m_edit = w.page.m_edit ∧ w'.page.m_delete = w.page.m_delete ∧
      (w.page.m_list.selection < (w.page.m_list.items.length : Int) →
        w'.page.m_list = w.page.m_list) := by
  refine ⟨_, OnNewExtractor_cancelled live w, ?_⟩
  rw [saveIf_page]
  refine ⟨rfl, rfl, ?_, rfl, rfl, ?_⟩
  · simp only [Delete_items, wxListBox.Append, ← hlen, eraseIdx_concat_length]
  · intro hsel
    dsimp only
    rw [← hlen]
    exact Delete_append_length _ _ hsel

/-- C2 on the one-record page. -/
theorem C2_new_then_cancel_restores_witness :
    onePage.page.m_list.items.length = onePage.page.m_extractors.Data.length ∧
    ∃ w', OnNewExtractor false onePage .cancelled = some w' ∧
      w'.page.m_extractors = onePage.page.m_extractors ∧
      w'.page.m_extractors.Data.length = onePage.page.m_extractors.Data.length ∧
      w'.page.m_list.items = onePage.page.m_list.items ∧
      w'.page.m_edit = onePage.page.m_edit ∧ w'.page.m_delete = onePage.page.m_delete ∧
      (onePage.page.m_list.selection < (onePage.page.m_list.items.length : Int) →
        w'.page.m_list = onePage.page.m_list) :=
  ⟨by decide, C2_new_then_cancel_restores false onePage (by decide)⟩

/-- C3: on a page whose visual list has as many entries as the collection `c`, `new()`
followed by confirming the edit form with six field values returns; the collection is then
`c` followed by one record holding exactly those six values (length `|c|+1`, first `|c|`
records those of `c`), and the visual list is the old one followed by the new name, so its
last entry is the name. -/
theorem C3_new_then_confirm_appends (live : Bool) (w : World)
    (name extensions command keywordItem fileItem charsetItem : String)
    (hlen : w.page.m_list.items.length = w.page.m_extractors.Data.length) :
    ∃ w', OnNewExtractor live w
        (.confirmed ⟨name, extensions, command, keywordItem, fileItem, charsetItem⟩) = some w' ∧
      w'.page.m_extractors.Data.length = w.page.m_extractors.Data.length + 1 ∧
      w'.page.m_extractors.Data.take w.page.m_extractors.Data.length = w.page.m_extractors.Data ∧
      w'.page.m_extractors.Data.getLast?
        = some ⟨name, extensions, command, keywordItem, fileItem, charsetItem⟩ ∧
      w'.page.m_extractors.Data = w.page.m_extractors.Data
        ++ [⟨name, extensions, command, keywordItem, fileItem, charsetItem⟩] ∧
      w'.page.m_list.items = w.page.m_list.items ++ [name] ∧
      w'.page.m_list.items.getLast? = some name := by
  refine ⟨_, OnNewExtractor_confirmed live w _, ?_⟩
  rw [saveIf_page]
  have hitems : ((w.page.m_list.Append "").SetString
      (w.page.m_extractors.Data.length : Int) name).items = w.page.m_list.items ++ [name] := by
    simp only [SetString_items, wxListBox.Append, ← hlen, set_concat_length]
  refine ⟨?_, ?_, ?_, rfl, hitems, ?_⟩
  · simp
  · simp [EditDialog.toExtractor]
  · simp [EditDialog.toExtractor]
  · dsimp only
    rw [hitems]
    simp

/-- C3 at name "X", extensions "*.c", command "xgettext", fileItem "%f" on the page over
the empty store: the last record has those values and the last visual entry is "X". -/
theorem C3_new_then_confirm_appends_witness :
    emptyPage.page.m_list.items.length = emptyPage.page.m_extractors.Data.length ∧
    ∃ w', OnNewExtractor false emptyPage (.confirmed ⟨"X", "*.c", "xgettext", "", "%f", ""⟩)
        = some w' ∧
      w'.page.m_extractors.Data.length = emptyPage.page.m_extractors.Data.length + 1 ∧
      w'.page.m_extractors.Data.take emptyPage.page.m_extractors.Data.length
        = emptyPage.page.m_extractors.Data ∧
      w'.page.m_extractors.Data.getLast? = some ⟨"X", "*.c", "xgettext", "", "%f", ""⟩ ∧
      w'.page.m_extractors.Data = emptyPage.page.m_extractors.Data
        ++ [⟨"X", "*.c", "xgettext", "", "%f", ""⟩] ∧
      w'.page.m_list.items = emptyPage.page.m_list.items ++ ["X"] ∧
      w'.page.m_list.items.getLast? = some "X" :=
  ⟨by decide, C3_new_then_confirm_appends false emptyPage "X" "*.c" "xgettext" "" "%f" ""
    (by decide)⟩

/-! ## Deleting the only record -/

/-- C4: on the page shown over a one-record store (record selected, buttons enabled), the
Delete handler empties the collection and disables the list box, but the Edit and Delete
buttons stay enabled and both actions are still offered. -/
theorem C4_delete_only_record_leaves_buttons_enabled :
    onePage.page.m_extractors.Data = [sampleRecord] ∧
    (OnDeleteExtractor false onePage).map (fun w =>
        (w.page.m_extractors.Data, w.page.m_list.enabled, w.page.m_edit.enabled,
          w.page.m_delete.enabled, Op.offered w (.edit .cancelled), Op.offered w .delete))
      = some ([], false, true, true, true, true) := by
  decide

/-! ## The confirm gate of the edit form -/

/-- C5: the OK action of the edit form is disabled exactly when at least one of the name,
extensions, command and file-item controls is empty; the keyword and charset controls have
no influence on it. -/
theorem C5_ok_disabled_iff_required_field_empty (d : EditDialog) :
    (d.okEnabled = false ↔
      (d.extractor_language = "" ∨ d.extractor_extensions = "" ∨
        d.extractor_command = "" ∨ d.extractor_files = "")) ∧
    (∀ keywords charset : String,
      ({ d with extractor_keywords := keywords, extractor_charset := charset }).okEnabled
        = d.okEnabled) := by
  constructor
  · simp only [EditDialog.okEnabled, wxTextCtrl.IsEmpty, Bool.and_eq_false_iff, Bool.not_eq_false',
      decide_eq_true_eq]
    tauto
  · intro keywords charset
    rfl

/-! ## Only complete records are saved -/

/-- The optional save at the end of a handler records at most one call, and that call
carries the collection of the page. -/
theorem saveIf_calls (live : Bool) (w : World) :
    ∃ added, (if live then (TransferDataFromWindow w).2 else w).calls = w.calls ++ added ∧
      ∀ c, Call.SaveValues c ∈ added → c = w.page.m_extractors.Data := by
  cases live
  · exact ⟨[], by simp, by simp⟩
  · cases h : w.page.m_inTransfer
    · refine ⟨[Call.SaveValues w.page.m_extractors.Data], ?_, ?_⟩
      · simp [TransferDataFromWindow_idle w h, SaveValues]
      · intro c hc
        simpa using hc
    · exact ⟨[], by simp [TransferDataFromWindow, h], by simp⟩

/-- A confirmable dialog content makes a complete record. -/
theorem Complete_of_okEnabled (d : EditDialog) (h : d.okEnabled = true) :
    d.toExtractor.Complete := by
  simp only [EditDialog.okEnabled, wxTextCtrl.IsEmpty, Bool.and_eq_true, Bool.not_eq_true',
    decide_eq_false_iff_not] at h
  obtain ⟨⟨⟨h1, h2⟩, h3⟩, h4⟩ := h
  exact ⟨h1, h2, h3, h4⟩

/-- One step keeps every record complete, and whatever it saves is the resulting
collection. -/
theorem Complete_step (live : Bool) (w w' : World) (op : Op)
    (hc : ∀ e ∈ w.page.m_extractors.Data, e.Complete)
    (h : step live w op = some w') :
    (∀ e ∈ w'.page.m_extractors.Data, e.Complete) ∧
    ∃ added, w'.calls = w.calls ++ added ∧
      ∀ c, Call.SaveValues c ∈ added → c = w'.page.m_extractors.Data := by
  unfold step at h
  split at h
  case isFalse => cases h
  case isTrue hoff =>
  cases op with
  | new r =>
    cases r with
    | confirmed d =>
      simp only [Op.offered, DialogResult.possible, Bool.and_eq_true] at hoff
      simp only [Op.handle, OnNewExtractor_confirmed, Option.some.injEq] at h
      subst h
      rw [saveIf_page]
      refine ⟨?_, saveIf_calls live _⟩
      intro e he
      simp only [List.mem_append, List.mem_singleton] at he
      rcases he with he | he
      · exact hc e he
      · rw [he]
        exact Complete_of_okEnabled d hoff.2
    | cancelled =>
      simp only [Op.handle, OnNewExtractor_cancelled, Option.some.injEq] at h
      subst h
      rw [saveIf_page]
      exact ⟨hc, saveIf_calls live _⟩
  | edit r =>
    simp only [Op.handle] at h
    obtain ⟨i, hsel, hi⟩ := OnEditExtractor_defined h
    cases r with
    | confirmed d =>
      simp only [Op.offered, DialogResult.possible, Bool.and_eq_true] at hoff
      rw [OnEditExtractor_confirmed live w d i hsel hi, Option.some.injEq] at h
      subst h
      rw [saveIf_page]
      refine ⟨?_, saveIf_calls live _⟩
      intro e he
      rcases List.mem_or_eq_of_mem_set he with he | he
      · exact hc e he
      · rw [he]
        exact Complete_of_okEnabled d hoff.2
    | cancelled =>
      rw [OnEditExtractor_cancelled live w i hsel hi, Option.some.injEq] at h
      subst h
      exact ⟨hc, [], by simp, by simp⟩
  | delete =>
    simp only [Op.handle] at h
    obtain ⟨i, hsel, hi⟩ := OnDeleteExtractor_defined h
    rw [OnDeleteExtractor_valid live w i hsel hi, Option.some.injEq] at h
    subst h
    rw [saveIf_page]
    refine ⟨?_, saveIf_calls live _⟩
    intro e he
    exact hc e (List.mem_of_mem_eraseIdx he)
  | select i =>
    simp only [Op.handle, Option.some.injEq] at h
    subst h
    exact ⟨hc, [], by simp, by simp⟩
  | commit =>
    simp only [Op.handle, Option.some.injEq] at h
    subst h
    rw [TransferDataFromWindow_page]
    refine ⟨hc, ?_⟩
    simpa using saveIf_calls true w

/-- C6: start from any page whose records all have non-empty name, extensions, command and
file item, and run any session of new / edit / delete actions, list clicks and saves, with
or without live-apply.  Then every collection handed to the store by `SaveValues` during
the session consists of records whose four required fields are non-empty, and so does the
collection the session ends with. -/
theorem C6_only_complete_records_saved (live : Bool) (w0 w : World) (ops : List Op)
    (hstart : ∀ e ∈ w0.page.m_extractors.Data, e.Complete)
    (hrun : run live w0 ops = some w) :
    (∃ added, w.calls = w0.calls ++ added ∧
      ∀ c, Call.SaveValues c ∈ added → ∀ e ∈ c, e.Complete) ∧
    (∀ e ∈ w.page.m_extractors.Data, e.Complete) := by
  induction ops generalizing w0 with
  | nil =>
    simp only [run, Option.some.injEq] at hrun
    subst hrun
    exact ⟨⟨[], by simp, by simp⟩, hstart⟩
  | cons op ops ih =>
    simp only [run] at hrun
    cases hstep : step live w0 op with
    | none => rw [hstep] at hrun; cases hrun
    | some w1 =>
      rw [hstep] at hrun
      obtain ⟨hc1, a1, hcalls1, hsaved1⟩ := Complete_step live w0 w1 op hstart hstep
      obtain ⟨⟨a2, hcalls2, hsaved2⟩, hfinal⟩ := ih w1 hc1 hrun
      refine ⟨⟨a1 ++ a2, ?_, ?_⟩, hfinal⟩
      · rw [hcalls2, hcalls1, List.append_assoc]
      · intro c hmem
        rcases List.mem_append.mp hmem with hm | hm
        · rw [hsaved1 c hm]
          exact hc1
        · exact hsaved2 c hm

/-- C6 on a live session over a one-record store: three saves, all of complete records. -/
theorem C6_only_complete_records_saved_witness :
    (∀ e ∈ onePage.page.m_extractors.Data, e.Complete) ∧
    run true onePage sampleSession = some liveSessionEnd ∧
    (∃ added, liveSessionEnd.calls = onePage.calls ++ added ∧
      ∀ c, Call.SaveValues c ∈ added → ∀ e ∈ c, e.Complete) ∧
    (∀ e ∈ liveSessionEnd.page.m_extractors.Data, e.Complete) :=
  ⟨by decide, by decide,
    C6_only_complete_records_saved true onePage liveSessionEnd sampleSession
      (by decide) (by decide)⟩

/-! ## Editing and deleting a record -/

/-- C7: let `i` be the selected index, valid in the collection and in the visual list.
`edit(i)` confirmed with six field values returns a page whose collection has the same
length, holds exactly those values at `i` and the old record everywhere else, and whose
visual list has the same length, shows the new name at `i` and the old entry everywhere
else.  `edit(i)` cancelled returns the state it started from, unchanged. -/
theorem C7_edit_confirm_and_cancel (live : Bool) (w : World) (i : Nat)
    (name extensions command keywordItem fileItem charsetItem : String)
    (hsel : w.page.m_list.selection = (i : Int))
    (hi : i < w.page.m_extractors.Data.length)
    (hvis : i < w.page.m_list.items.length) :
    (∃ w', OnEditExtractor live w
        (.confirmed ⟨name, extensions, command, keywordItem, fileItem, charsetItem⟩) = some w' ∧
      w'.page.m_extractors.Data.length = w.page.m_extractors.Data.length ∧
      w'.page.m_extractors.Data[i]?
        = some ⟨name, extensions, command, keywordItem, fileItem, charsetItem⟩ ∧
      (∀ j, j ≠ i → w'.page.m_extractors.Data[j]? = w.page.m_extractors.Data[j]?) ∧
      w'.page.m_list.items.length = w.page.m_list.items.length ∧
      w'.page.m_list.items[i]? = some name ∧
      (∀ j, j ≠ i → w'.page.m_list.items[j]? = w.page.m_list.items[j]?)) ∧
    OnEditExtractor live w .cancelled = some w := by
  refine ⟨⟨_, OnEditExtractor_confirmed live w _ i hsel hi, ?_⟩,
    OnEditExtractor_cancelled live w i hsel hi⟩
  rw [saveIf_page]
  dsimp only
  rw [SetString_items]
  refine ⟨by simp, ?_, ?_, by simp, ?_, ?_⟩
  · simp [List.getElem?_set, hi, EditDialog.toExtractor]
  · intro j hj
    simp [List.getElem?_set, Ne.symm hj]
  · simp [List.getElem?_set, hvis]
  · intro j hj
    simp [List.getElem?_set, Ne.symm hj]

/-- C7 on a two-record page reached by a session: editing the second record. -/
theorem C7_edit_confirm_and_cancel_witness :
    run false onePage [.new (.confirmed sampleDialog), .select 1] = some twoPage ∧
    twoPage.page.m_list.selection = ((1 : Nat) : Int) ∧
    1 < twoPage.page.m_extractors.Data.length ∧
    1 < twoPage.page.m_list.items.length ∧
    (∃ w', OnEditExtractor false twoPage
        (.confirmed ⟨"Lua", "*.lua", "xgettext -L Lua", "-k%k", "%f", "%c"⟩) = some w' ∧
      w'.page.m_extractors.Data.length = twoPage.page.m_extractors.Data.length ∧
      w'.page.m_extractors.Data[1]?
        = some ⟨"Lua", "*.lua", "xgettext -L Lua", "-k%k", "%f", "%c"⟩ ∧
      (∀ j, j ≠ 1 → w'.page.m_extractors.Data[j]? = twoPage.page.m_extractors.Data[j]?) ∧
      w'.page.m_list.items.length = twoPage.page.m_list.items.length ∧
      w'.page.m_list.items[1]? = some "Lua" ∧
      (∀ j, j ≠ 1 → w'.page.m_list.items[j]? = twoPage.page.m_list.items[j]?)) ∧
    OnEditExtractor false twoPage .cancelled = some twoPage :=
  ⟨by decide, by decide, by decide, by decide,
    C7_edit_confirm_and_cancel false twoPage 1 "Lua" "*.lua" "xgettext -L Lua" "-k%k" "%f" "%c"
      (by decide) (by decide) (by decide)⟩

/-- C8: let `i` be the selected index, valid in a collection of length `n`.  `delete(i)`
returns a page whose collection is the old one with exactly the `i`-th record removed
(length `n-1`, records before `i` in place, records after `i` moved up by one, field values
untouched), and whose visual list is the old one with its `i`-th entry removed in the same
way. -/
theorem C8_delete_removes_ith (live : Bool) (w : World) (i : Nat)
    (hsel : w.page.m_list.selection = (i : Int))
    (hi : i < w.page.m_extractors.Data.length) :
    ∃ w', OnDeleteExtractor live w = some w' ∧
      w'.page.m_extractors.Data = w.page.m_extractors.Data.eraseIdx i ∧
      w'.page.m_extractors.Data.length = w.page.m_extractors.Data.length - 1 ∧
      (∀ j, j < i → w'.page.m_extractors.Data[j]? = w.page.m_extractors.Data[j]?) ∧
      (∀ j, i ≤ j → w'.page.m_extractors.Data[j]? = w.page.m_extractors.Data[j + 1]?) ∧
      w'.page.m_list.items = w.page.m_list.items.eraseIdx i ∧
      (∀ j, j < i → w'.page.m_list.items[j]? = w.page.m_list.items[j]?) ∧
      (∀ j, i ≤ j → w'.page.m_list.items[j]? = w.page.m_list.items[j + 1]?) := by
  refine ⟨_, OnDeleteExtractor_valid live w i hsel hi, ?_⟩
  rw [saveIf_page]
  dsimp only
  have hitems : (if (w.page.m_extractors.Data.eraseIdx i).isEmpty
        then ((w.page.m_list.Delete (i : Int)).Enable false).Enable false
        else w.page.m_list.Delete (i : Int)).items = w.page.m_list.items.eraseIdx i := by
    split <;> simp [Delete_items, wxListBox.Enable]
  rw [hitems]
  refine ⟨rfl, List.length_eraseIdx_of_lt hi, ?_, ?_, rfl, ?_, ?_⟩
  · intro j hj
    exact List.getElem?_eraseIdx_of_lt _ _ _ hj
  · intro j hj
    exact List.getElem?_eraseIdx_of_ge _ _ _ hj
  · intro j hj
    exact List.getElem?_eraseIdx_of_lt _ _ _ hj
  · intro j hj
    exact List.getElem?_eraseIdx_of_ge _ _ _ hj

/-- C8 on the one-record page: deleting record 0. -/
theorem C8_delete_removes_ith_witness :
    onePage.page.m_list.selection = ((0 : Nat) : Int) ∧
    0 < onePage.page.m_extractors.Data.length ∧
    ∃ w', OnDeleteExtractor true onePage = some w' ∧
      w'.page.m_extractors.Data = onePage.page.m_extractors.Data.eraseIdx 0 ∧
      w'.page.m_extractors.Data.length = onePage.page.m_extractors.Data.length - 1 ∧
      (∀ j, j < 0 → w'.page.m_extractors.Data[j]? = onePage.page.m_extractors.Data[j]?) ∧
      (∀ j, 0 ≤ j → w'.page.m_extractors.Data[j]? = onePage.page.m_extractors.Data[j + 1]?) ∧
      w'.page.m_list.items = onePage.page.m_list.items.eraseIdx 0 ∧
      (∀ j, j < 0 → w'.page.m_list.items[j]? = onePage.page.m_list.items[j]?) ∧
      (∀ j, 0 ≤ j → w'.page.m_list.items[j]? = onePage.page.m_list.items[j + 1]?) :=
  ⟨by decide, by decide, C8_delete_removes_ith true onePage 0 (by decide) (by decide)⟩

/-! ## Live-apply and explicit commit -/

/-- A live handler that ends in `TransferDataFromWindow` on an idle page saves. -/
theorem SavedBy_transfer (w w1 : World) (hidle : w1.page.m_inTransfer = false)
    (hcfg : w1.config = w.config) (hcalls : w1.calls = w.calls) :
    SavedBy w (TransferDataFromWindow w1).2 := by
  rw [TransferDataFromWindow_idle w1 hidle]
  simp [SavedBy, SaveValues, hcfg, hcalls]

/-- C9: on an idle page (no transfer in progress).  With live-apply, a confirmed add, a
confirmed edit and a delete each end with one `SaveValues` of the resulting collection into
the store.  Without live-apply, no add, edit or delete, confirmed or cancelled, touches the
store or calls `SaveValues`; the store is then written by the explicit commit, for which
`TransferDataFromWindow` runs `SaveValues` and reports success.  The add handler always
returns; the edit and delete handlers return whenever the selection is a valid index. -/
theorem C9_live_apply_saves_else_only_commit (w : World)
    (hidle : w.page.m_inTransfer = false) :
    (∀ d, ∃ w', OnNewExtractor true w (.confirmed d) = some w' ∧ SavedBy w w') ∧
    (∀ d w', OnEditExtractor true w (.confirmed d) = some w' → SavedBy w w') ∧
    (∀ w', OnDeleteExtractor true w = some w' → SavedBy w w') ∧
    (∀ r, ∃ w', OnNewExtractor false w r = some w' ∧ StoreUntouched w w') ∧
    (∀ r w', OnEditExtractor false w r = some w' → StoreUntouched w w') ∧
    (∀ w', OnDeleteExtractor false w = some w' → StoreUntouched w w') ∧
    (∀ (live : Bool) (r : DialogResult) (i : Nat), w.page.m_list.selection = (i : Int) →
      i < w.page.m_extractors.Data.length →
      (OnEditExtractor live w r).isSome = true ∧ (OnDeleteExtractor live w).isSome = true) ∧
    (TransferDataFromWindow w = (true, SaveValues w) ∧ SavedBy w (SaveValues w)) := by
  refine ⟨?_, ?_, ?_, ?_, ?_, ?_, ?_, ?_⟩
  · intro d
    refine ⟨_, OnNewExtractor_confirmed true w d, ?_⟩
    exact SavedBy_transfer w _ hidle rfl rfl
  · intro d w' h
    obtain ⟨i, hsel, hi⟩ := OnEditExtractor_defined h
    rw [OnEditExtractor_confirmed true w d i hsel hi, Option.some.injEq] at h
    subst h
    exact SavedBy_transfer w _ hidle rfl rfl
  · intro w' h
    obtain ⟨i, hsel, hi⟩ := OnDeleteExtractor_defined h
    rw [OnDeleteExtractor_valid true w i hsel hi, Option.some.injEq] at h
    subst h
    exact SavedBy_transfer w _ hidle rfl rfl
  · intro r
    cases r with
    | confirmed d => exact ⟨_, OnNewExtractor_confirmed false w d, rfl, rfl⟩
    | cancelled => exact ⟨_, OnNewExtractor_cancelled false w, rfl, rfl⟩
  · intro r w' h
    obtain ⟨i, hsel, hi⟩ := OnEditExtractor_defined h
    cases r with
    | confirmed d =>
      rw [OnEditExtractor_confirmed false w d i hsel hi, Option.some.injEq] at h
      subst h
      exact ⟨rfl, rfl⟩
    | cancelled =>
      rw [OnEditExtractor_cancelled false w i hsel hi, Option.some.injEq] at h
      subst h
      exact ⟨rfl, rfl⟩
  · intro w' h
    obtain ⟨i, hsel, hi⟩ := OnDeleteExtractor_defined h
    rw [OnDeleteExtractor_valid false w i hsel hi, Option.some.injEq] at h
    subst h
    exact ⟨rfl, rfl⟩
  · intro live r i hsel hi
    constructor
    · cases r with
      | confirmed d => rw [OnEditExtractor_confirmed live w d i hsel hi]; rfl
      | cancelled => rw [OnEditExtractor_cancelled live w i hsel hi]; rfl
    · rw [OnDeleteExtractor_valid live w i hsel hi]; rfl
  · exact ⟨TransferDataFromWindow_idle w hidle, rfl, rfl⟩

/-- C9 on the two-record page: a live delete saves, a delete without live-apply does not,
and the explicit commit does. -/
theorem C9_live_apply_saves_else_only_commit_witness :
    twoPage.page.m_inTransfer = false ∧
    (∀ w', OnDeleteExtractor true twoPage = some w' → SavedBy twoPage w') ∧
    (∀ w', OnDeleteExtractor false twoPage = some w' → StoreUntouched twoPage w') ∧
    (TransferDataFromWindow twoPage = (true, SaveValues twoPage) ∧
      SavedBy twoPage (SaveValues twoPage)) :=
  ⟨by decide,
    (C9_live_apply_saves_else_only_commit twoPage (by decide)).2.2.1,
    (C9_live_apply_saves_else_only_commit twoPage (by decide)).2.2.2.2.2.1,
    (C9_live_apply_saves_else_only_commit twoPage (by decide)).2.2.2.2.2.2.2⟩

/-! ## Saving and loading the collection -/

/-- A store whose bindings start with `pre` (holding no per-index key numbered `start` or
higher) followed by the bindings of `data` numbered from `start` reads back as `data`. -/
theorem readRecords_collectionEntries (data : List Extractor) (start : Nat)
    (pre rest : List (CfgKey × CfgValue))
    (hpre : ∀ kv ∈ pre, ∀ j f, kv.1 = CfgKey.extractorField j f → j < start) :
    readRecords ⟨pre ++ (collectionEntries start data ++ rest)⟩ start data.length
      = some data := by
  induction data generalizing start pre with
  | nil => rfl
  | cons e es ih =>
    have hnone : ∀ f, pre.lookup (CfgKey.extractorField start f) = none := by
      intro f
      rw [List.lookup_eq_none_iff]
      intro kv hkv
      simp only [bne_iff_ne, ne_eq]
      intro heq
      exact Nat.lt_irrefl _ (hpre kv hkv start f heq.symm)
    have hrec : readRecord ⟨pre ++ (collectionEntries start (e :: es) ++ rest)⟩ start
        = some e := by
      have hbeq : ∀ f g : ExtractorField,
          (CfgKey.extractorField start f == CfgKey.extractorField start g) = decide (f = g) := by
        intro f g
        by_cases hfg : f = g <;> simp [hfg]
      simp [readRecord, readField, wxConfigBase.find, List.lookup_append, hnone,
        collectionEntries, recordEntries, List.lookup_cons, hbeq]
    have htail : readRecords ⟨pre ++ (collectionEntries start (e :: es) ++ rest)⟩
        (start + 1) es.length = some es := by
      have hshape : pre ++ (collectionEntries start (e :: es) ++ rest)
          = (pre ++ recordEntries start e) ++ (collectionEntries (start + 1) es ++ rest) := by
        simp [collectionEntries, List.append_assoc]
      rw [hshape]
      apply ih
      intro kv hkv j f heq
      rcases List.mem_append.mp hkv with hm | hm
      · exact Nat.lt_succ_of_lt (hpre kv hm j f heq)
      · simp only [recordEntries, List.mem_cons, List.mem_singleton, List.mem_nil_iff,
          or_false] at hm
        rcases hm with hm | hm | hm | hm | hm | hm <;>
          · rw [hm] at heq
            injection heq with h1 _
            omega
    simp only [List.length_cons, readRecords, hrec, htail]

/-- Loading what was just written gives the written collection. -/
theorem Read_Write (db0 db : ExtractorsDB) (cfg : wxConfigBase) :
    db0.Read (db.Write cfg) = db := by
  have hfind : (db.Write cfg).find CfgKey.extractorCount = some (CfgValue.num db.Data.length) := by
    simp [wxConfigBase.find, ExtractorsDB.Write]
  have hrecords : readRecords (db.Write cfg) 0 db.Data.length = some db.Data := by
    have := readRecords_collectionEntries db.Data 0
      [(CfgKey.extractorCount, CfgValue.num db.Data.length)]
      (cfg.entries.filter (fun kv => !kv.1.isExtractorKey))
      (by
        intro kv hkv j f heq
        simp only [List.mem_singleton] at hkv
        rw [hkv] at heq
        cases heq)
    simpa [ExtractorsDB.Write] using this
  simp only [ExtractorsDB.Read, hfind, hrecords]

/-- The collection after `InitValues` is what `ExtractorsDB::Read` loads. -/
theorem InitValues_extractors (w : World) :
    (InitValues w).page.m_extractors = w.page.m_extractors.Read w.config := by
  unfold InitValues
  dsimp only
  split <;> rfl

/-- C10: round trip.  For every page, whatever its collection (empty, one record, many),
`SaveValues` into any store followed by `InitValues` of a freshly constructed page over
that store gives a collection equal to the saved one: same length, same records with the
same six field values, in the same order; the fresh visual list shows their names. -/
theorem C10_save_then_load_roundtrip (w : World) :
    (InitValues (World.create (SaveValues w).config)).page.m_extractors
      = w.page.m_extractors ∧
    (InitValues (World.create (SaveValues w).config)).page.m_extractors.Data.length
      = w.page.m_extractors.Data.length ∧
    (∀ i : Nat, (InitValues (World.create (SaveValues w).config)).page.m_extractors.Data[i]?
      = w.page.m_extractors.Data[i]?) ∧
    (InitValues (World.create (SaveValues w).config)).page.m_list.items
      = w.page.m_extractors.Data.map (fun e => e.Name) := by
  have hdb : (InitValues (World.create (SaveValues w).config)).page.m_extractors
      = w.page.m_extractors := by
    rw [InitValues_extractors]
    exact Read_Write _ w.page.m_extractors w.config
  have hsync := InSync_InitValues (World.create (SaveValues w).config) rfl
  unfold InSync at hsync
  refine ⟨hdb, by rw [hdb], fun i => by rw [hdb], ?_⟩
  rw [hsync, hdb]

/-! ## Enabled buttons and the selection -/

/-- Base case of the selection invariant: after `InitValues` an empty collection has the
Edit and Delete buttons disabled, and a non-empty one has item 0 selected. -/
theorem InitValues_controls (w0 : World) :
    ((InitValues w0).page.m_extractors.Data = [] →
      (InitValues w0).page.m_edit.enabled = false ∧
      (InitValues w0).page.m_delete.enabled = false) ∧
    ((InitValues w0).page.m_extractors.Data ≠ [] →
      (InitValues w0).page.m_list.selection = 0) := by
  rw [InitValues_extractors]
  unfold InitValues
  dsimp only
  constructor
  · intro h
    simp [h, wxButton.Enable]
  · intro h
    have hne : (w0.page.m_extractors.Read w0.config).Data.isEmpty = false := by
      cases hd : (w0.page.m_extractors.Read w0.config).Data with
      | nil => exact absurd hd h
      | cons e es => rfl
    have hvalid : (List.foldl (fun l item => l.Append item.Name) w0.page.m_list
        (w0.page.m_extractors.Read w0.config).Data).IsValid 0 = true := by
      have hpos : 0 < (w0.page.m_extractors.Read w0.config).Data.length :=
        List.length_pos.mpr h
      simp only [wxListBox.IsValid, foldl_Append_items, List.length_append, List.length_map]
      simp only [Bool.and_eq_true, decide_eq_true_eq]
      omega
    simp [hne, wxListBox.SetSelection, hvalid]

/-- C11: two sessions of offered actions that end with the Edit and Delete buttons enabled
while the selection is not an index of the collection.  Deleting the only record leaves an
empty collection with both buttons enabled; adding the first record to an empty page
enables both buttons while nothing is selected.  In both end states the Edit and Delete
actions are offered and their handlers index, respectively erase, outside the vector. -/
theorem C11_buttons_enabled_without_valid_selection :
    (run false onePage [.delete] = some emptiedPage ∧
      emptiedPage.page.m_extractors.Data.length = 0 ∧
      emptiedPage.page.m_edit.enabled = true ∧
      emptiedPage.page.m_delete.enabled = true ∧
      Op.offered emptiedPage (.edit .cancelled) = true ∧
      Op.offered emptiedPage .delete = true ∧
      OnEditExtractor false emptiedPage .cancelled = none ∧
      OnDeleteExtractor false emptiedPage = none) ∧
    (run false emptyPage [.new (.confirmed sampleDialog)] = some firstAddedPage ∧
      firstAddedPage.page.m_extractors.Data.length = 1 ∧
      firstAddedPage.page.m_list.selection = wxNOT_FOUND ∧
      firstAddedPage.page.m_edit.enabled = true ∧
      firstAddedPage.page.m_delete.enabled = true ∧
      Op.offered firstAddedPage (.edit .cancelled) = true ∧
      Op.offered firstAddedPage .delete = true ∧
      OnEditExtractor false firstAddedPage .cancelled = none ∧
      OnDeleteExtractor false firstAddedPage = none) := by
  refine ⟨⟨?_, ?_, ?_, ?_, ?_, ?_, ?_, ?_⟩, ⟨?_, ?_, ?_, ?_, ?_, ?_, ?_, ?_, ?_⟩⟩ <;> decide

/-! ## The transfer guard of `PrefsPanel` -/

/-- While a transfer is in progress, a transfer method is turned away whatever the fuel. -/
theorem method_guarded {σ : Type} (cls : PrefsPanelClass σ) (fuel : Nat) (t : Transfer)
    (p : PrefsPanel σ) (h : p.m_inTransfer = true) :
    PrefsPanel.method cls (fuel + 1) t p = some (false, p) := by
  cases t <;>
    simp [PrefsPanel.method, PrefsPanel.TransferDataToWindow,
      PrefsPanel.TransferDataFromWindow, h]

/-- A body run while a transfer is in progress only changes the state it owns: every
transfer call it makes is turned away. -/
theorem exec_guarded {σ : Type} (cls : PrefsPanelClass σ) (fuel : Nat) (body : Body σ)
    (p : PrefsPanel σ) (h : p.m_inTransfer = true) :
    body.exec (PrefsPanel.method cls (fuel + 1)) p
      = some { p with derived := body.turnedAway p.derived } := by
  induction body generalizing p with
  | done => rfl
  | update f next ih =>
    simp only [Body.exec, Body.turnedAway]
    exact ih _ h
  | inspect next ih =>
    simp only [Body.exec, Body.turnedAway]
    exact ih _ p h
  | call t next ih =>
    simp only [Body.exec, Body.turnedAway, method_guarded cls fuel t p h]
    exact ih _ p h

/-- C12: the re-entrancy guard of `PrefsPanel`, for every derived class, whatever its
overrides do (including calling the transfer methods again from inside).  Called while
`m_inTransfer` is set, `TransferDataToWindow` and `TransferDataFromWindow` return false and
leave the whole panel as it was: no virtual function is invoked and `m_inTransfer` is
unchanged.  Called with `m_inTransfer` clear, they return true, leave `m_inTransfer` clear,
and the record of virtual calls grows by exactly one entry, `InitValues` respectively
`SaveValues`; transfer calls made from inside the override are all turned away.  Two
levels of fuel suffice for this.  The same holds on the extractors page, whose record of
calls grows by exactly one `InitValues`, respectively one `SaveValues` of its collection. -/
theorem C12_transfer_guard {σ : Type} (cls : PrefsPanelClass σ) (fuel : Nat)
    (p : PrefsPanel σ) (w : World) :
    (PrefsPanel.method cls (fuel + 2) .toWindow p =
      if p.m_inTransfer then some (false, p)
      else some (true,
        { m_inTransfer := false
          derived := cls.InitValues.turnedAway p.derived
          invoked := p.invoked ++ [Virtual.InitValues] })) ∧
    (PrefsPanel.method cls (fuel + 2) .fromWindow p =
      if p.m_inTransfer then some (false, p)
      else some (true,
        { m_inTransfer := false
          derived := cls.SaveValues.turnedAway p.derived
          invoked := p.invoked ++ [Virtual.SaveValues] })) ∧
    (TransferDataToWindow w =
      if w.page.m_inTransfer then (false, w)
      else (true, InitValues w)) ∧
    (TransferDataToWindow w).2.page.m_inTransfer = w.page.m_inTransfer ∧
    ((TransferDataToWindow w).2.calls =
      if w.page.m_inTransfer then w.calls else w.calls ++ [Call.InitValues]) ∧
    (TransferDataFromWindow w =
      if w.page.m_inTransfer then (false, w)
      else (true, SaveValues w)) ∧
    (TransferDataFromWindow w).2.page.m_inTransfer = w.page.m_inTransfer ∧
    ((TransferDataFromWindow w).2.calls =
      if w.page.m_inTransfer then w.calls
      else w.calls ++ [Call.SaveValues w.page.m_extractors.Data]) := by
  have hto : TransferDataToWindow w =
      if w.page.m_inTransfer then (false, w) else (true, InitValues w) := by
    cases h : w.page.m_inTransfer
    · unfold TransferDataToWindow InitValues
      simp only [h, Bool.false_eq_true, if_false]
      split <;> simp [h]
    · simp [TransferDataToWindow, h]
  have hfrom : TransferDataFromWindow w =
      if w.page.m_inTransfer then (false, w) else (true, SaveValues w) := by
    cases h : w.page.m_inTransfer
    · simpa using TransferDataFromWindow_idle w h
    · simp [TransferDataFromWindow, h]
  refine ⟨?_, ?_, hto, ?_, ?_, hfrom, ?_, ?_⟩
  · cases h : p.m_inTransfer
    · simp only [PrefsPanel.method, PrefsPanel.TransferDataToWindow, h, Bool.false_eq_true,
        if_false]
      rw [exec_guarded cls fuel cls.InitValues _ rfl]
      rfl
    · simpa [h] using method_guarded cls (fuel + 1) .toWindow p h
  · cases h : p.m_inTransfer
    · simp only [PrefsPanel.method, PrefsPanel.TransferDataFromWindow, h, Bool.false_eq_true,
        if_false]
      rw [exec_guarded cls fuel cls.SaveValues _ rfl]
      rfl
    · simpa [h] using method_guarded cls (fuel + 1) .fromWindow p h
  · rw [hto]
    cases h : w.page.m_inTransfer
    · simp only [Bool.false_eq_true, if_false]
      unfold InitValues
      dsimp only
      split <;> exact h
    · simp [h]
  · rw [hto]
    cases h : w.page.m_inTransfer
    · simp [InitValues]
    · simp
  · rw [TransferDataFromWindow_page]
  · rw [hfrom]
    cases h : w.page.m_inTransfer
    · simp [SaveValues]
    · simp

/-- The counting class on an idle panel: each transfer method runs its own override once
(the counter grows by one, respectively ten) and the nested transfer call is turned away
(the extra hundred is never added); on a panel in transfer nothing happens. -/
theorem countingClass_transfers :
    PrefsPanel.method countingClass 2 .toWindow ⟨false, 0, []⟩
      = some (true, ⟨false, 1, [Virtual.InitValues]⟩) ∧
    PrefsPanel.method countingClass 2 .fromWindow ⟨false, 0, []⟩
      = some (true, ⟨false, 10, [Virtual.SaveValues]⟩) ∧
    PrefsPanel.method countingClass 2 .toWindow ⟨true, 0, []⟩ = some (false, ⟨true, 0, []⟩) ∧
    PrefsPanel.method countingClass 2 .fromWindow ⟨true, 0, []⟩ = some (false, ⟨true, 0, []⟩) := by
  refine ⟨?_, ?_, ?_, ?_⟩ <;> decide

/-! ## The line-ending format on the General page -/

/-- Reading back a string that was just written. -/
theorem Read_Write_same (cfg : wxConfigBase) (key value defaultVal : String) :
    (cfg.Write key (.str value)).Read key defaultVal = value := by
  simp [wxConfigBase.Read, wxConfigBase.Write, wxConfigBase.find]

/-- The choice control after `InitValues`: the old one with `SetSelection(sel)` applied,
`sel` being 1 for a stored "win" and 0 otherwise. -/
theorem InitValues_crlf_format (env : Platform) (page : GeneralPageWindow)
    (cfg : wxConfigBase) :
    (page.InitValues env cfg).crlf_format
      = page.crlf_format.SetSelection (if cfg.Read "crlf_format" "unix" = "win" then 1 else 0) := by
  unfold GeneralPageWindow.InitValues
  dsimp only
  split <;> rfl

/-- On a choice with at least two entries `SetSelection` accepts 0 and 1. -/
theorem SetSelection_two (c : wxChoice) (h : 2 ≤ c.count) (win : Bool) :
    (c.SetSelection (if win then 1 else 0)).selection = (if win then 1 else 0) ∧
    (c.SetSelection (if win then 1 else 0)).count = c.count := by
  unfold wxChoice.SetSelection
  cases win
  · have h0 : (0 : Int) < (c.count : Int) := by omega
    simp [h0]
  · have h1 : (1 : Int) < (c.count : Int) := by omega
    simp [h1]

/-- What `SaveValues` stores under `crlf_format`: the entry of `formats` at the selected
index, when there is one. -/
theorem SaveValues_crlf_format (env : Platform) (page : GeneralPageWindow)
    (store : wxConfigBase) (format : String)
    (h : vectorAt formats page.crlf_format.selection = some format) :
    ∃ out, page.SaveValues env store = some out ∧
      out.1.Read "crlf_format" "unix" = format ∧
      out.2 = !env.ShouldApplyChangesImmediately := by
  unfold GeneralPageWindow.SaveValues
  simp only [wxChoice.GetSelection, h]
  exact ⟨_, rfl, Read_Write_same _ _ _ _, rfl⟩

/-- C13: on a General page whose line-ending choice offers at least two entries, for every
store.  An absent `crlf_format` key reads as "unix".  `InitValues` selects index 1 when
the stored value is "win" and index 0 otherwise, so the selection is 0 or 1 and inside the
two-entry table `formats`.  `SaveValues` run on that selection returns and stores "win"
when the loaded value was "win" and "unix" otherwise; so load-then-save leaves "unix" and
"win" as they are, and a second load-then-save stores what the first one did. -/
theorem C13_crlf_format_load_then_save (env : Platform) (page : GeneralPageWindow)
    (cfg : wxConfigBase) (hchoice : 2 ≤ page.crlf_format.count) :
    (cfg.find (.named "crlf_format") = none → cfg.Read "crlf_format" "unix" = "unix") ∧
    (page.InitValues env cfg).crlf_format.selection
      = (if cfg.Read "crlf_format" "unix" = "win" then 1 else 0) ∧
    ((page.InitValues env cfg).crlf_format.selection = 0 ∨
      (page.InitValues env cfg).crlf_format.selection = 1) ∧
    (vectorAt formats (page.InitValues env cfg).crlf_format.selection).isSome = true ∧
    (∀ store, ∃ out, (page.InitValues env cfg).SaveValues env store = some out ∧
      out.1.Read "crlf_format" "unix"
        = (if cfg.Read "crlf_format" "unix" = "win" then "win" else "unix")) ∧
    (∃ out, page.loadThenSave env cfg = some out ∧
      (cfg.Read "crlf_format" "unix" = "unix" ∨ cfg.Read "crlf_format" "unix" = "win" →
        out.1.Read "crlf_format" "unix" = cfg.Read "crlf_format" "unix") ∧
      ∃ again, (page.InitValues env cfg).loadThenSave env out.1 = some again ∧
        again.1.Read "crlf_format" "unix" = out.1.Read "crlf_format" "unix") := by
  have hsel : ∀ (q : GeneralPageWindow) (c : wxConfigBase), 2 ≤ q.crlf_format.count →
      (q.InitValues env c).crlf_format.selection
        = (if c.Read "crlf_format" "unix" = "win" then 1 else 0) ∧
      (q.InitValues env c).crlf_format.count = q.crlf_format.count := by
    intro q c hq
    rw [InitValues_crlf_format]
    have := SetSelection_two q.crlf_format hq (decide (c.Read "crlf_format" "unix" = "win"))
    by_cases hw : c.Read "crlf_format" "unix" = "win"
    · simpa [hw] using this
    · simpa [hw] using this
  have hsave : ∀ (q : GeneralPageWindow) (c store : wxConfigBase), 2 ≤ q.crlf_format.count →
      ∃ out, (q.InitValues env c).SaveValues env store = some out ∧
        out.1.Read "crlf_format" "unix"
          = (if c.Read "crlf_format" "unix" = "win" then "win" else "unix") := by
    intro q c store hq
    have hfmt : vectorAt formats (q.InitValues env c).crlf_format.selection
        = some (if c.Read "crlf_format" "unix" = "win" then "win" else "unix") := by
      rw [(hsel q c hq).1]
      by_cases hw : c.Read "crlf_format" "unix" = "win"
      · simp only [hw, if_true]; rfl
      · simp only [hw, if_false]; rfl
    obtain ⟨out, hout, hread, _⟩ := SaveValues_crlf_format env _ store _ hfmt
    exact ⟨out, hout, hread⟩
  refine ⟨?_, (hsel page cfg hchoice).1, ?_, ?_, fun store => hsave page cfg store hchoice, ?_⟩
  · intro habsent
    simp [wxConfigBase.Read, habsent]
  · rw [(hsel page cfg hchoice).1]
    by_cases hw : cfg.Read "crlf_format" "unix" = "win"
    · right; simp [hw]
    · left; simp [hw]
  · rw [(hsel page cfg hchoice).1]
    by_cases hw : cfg.Read "crlf_format" "unix" = "win"
    · simp only [hw, if_true]; rfl
    · simp only [hw, if_false]; rfl
  · obtain ⟨out, hout, hread⟩ := hsave page cfg cfg hchoice
    have hcount : 2 ≤ (page.InitValues env cfg).crlf_format.count := by
      rw [(hsel page cfg hchoice).2]
      exact hchoice
    obtain ⟨again, hagain, hread2⟩ := hsave (page.InitValues env cfg) out.1 out.1 hcount
    refine ⟨out, hout, ?_, again, hagain, ?_⟩
    · intro hs
      rw [hread]
      rcases hs with hs | hs
      · rw [hs]; decide
      · rw [hs]; decide
    · rw [hread2, hread]
      by_cases hw : cfg.Read "crlf_format" "unix" = "win"
      · simp [hw]
      · simp [hw]

/-- C13 on a page with a two-entry choice over a store holding the obsolete value "mac":
index 0 is selected and "unix" is stored. -/
theorem C13_crlf_format_load_then_save_witness :
    2 ≤ sampleGeneralPage.crlf_format.count ∧
    oldStore.Read "crlf_format" "unix" = "mac" ∧
    (sampleGeneralPage.InitValues samplePlatform oldStore).crlf_format.selection
      = (if oldStore.Read "crlf_format" "unix" = "win" then 1 else 0) ∧
    (∀ store, ∃ out,
      (sampleGeneralPage.InitValues samplePlatform oldStore).SaveValues samplePlatform store
        = some out ∧
      out.1.Read "crlf_format" "unix"
        = (if oldStore.Read "crlf_format" "unix" = "win" then "win" else "unix")) :=
  ⟨by decide, by decide,
    (C13_crlf_format_load_then_save samplePlatform sampleGeneralPage oldStore (by decide)).2.1,
    (C13_crlf_format_load_then_save samplePlatform sampleGeneralPage oldStore
      (by decide)).2.2.2.2.1⟩

/-! ## The import loop of the Translation Memory page -/

/-- The loop from any state: it makes `k` updates, numbered on from `step`, at most two per
path; all but possibly the last are answered with true, and it stops short of two per path
only on an update answered with false; it inserts the usable catalogs among the first
`k / 2` paths and never commits. -/
theorem importLoop_spec (IsOk : String → Bool) (Update : Nat → Bool) (paths : List String)
    (r : ImportRun) :
    ∃ k added, k ≤ 2 * paths.length ∧
      (importLoop IsOk Update paths r).step = r.step + k ∧
      (importLoop IsOk Update paths r).maximum = r.maximum ∧
      (importLoop IsOk Update paths r).log = r.log ++ added ∧
      updatesOf added = List.range' (r.step + 1) k ∧
      insertsOf added = (paths.take (k / 2)).filter IsOk ∧
      added.count TMCall.Commit = 0 ∧
      (∀ v, r.step < v → v < r.step + k → Update v = true) ∧
      (k = 2 * paths.length ∨ (1 ≤ k ∧ Update (r.step + k) = false)) := by
  induction paths generalizing r with
  | nil =>
    exact ⟨0, [], by simp, by simp [importLoop], by simp [importLoop], by simp [importLoop],
      by simp [updatesOf], by simp [insertsOf], by simp, fun v h1 h2 => by omega, Or.inl rfl⟩
  | cons path rest ih =>
    cases h1 : Update (r.step + 1) with
    | false =>
      refine ⟨1, [TMCall.Update (r.step + 1)], ?_⟩
      refine ⟨by simp only [List.length_cons]; omega, by simp [importLoop, h1],
        by simp [importLoop, h1], by simp [importLoop, h1], by simp [updatesOf],
        by simp [insertsOf], by simp, ?_, Or.inr ⟨Nat.le_refl _, h1⟩⟩
      intro v hv1 hv2
      omega
    | true =>
      cases h2 : Update (r.step + 2) with
      | false =>
        have hbefore : ∀ v, r.step < v → v < r.step + 2 → Update v = true := by
          intro v hv1 hv2
          have : v = r.step + 1 := by omega
          rw [this]; exact h1
        by_cases hok : IsOk path = true
        · refine ⟨2, [TMCall.Update (r.step + 1), TMCall.Insert path,
            TMCall.Update (r.step + 2)], ?_⟩
          refine ⟨by simp only [List.length_cons]; omega, by simp [importLoop, h1, h2, hok],
            by simp [importLoop, h1, h2, hok], by simp [importLoop, h1, h2, hok],
            by simp [updatesOf, List.range'_succ], by simp [insertsOf, hok], by simp,
            hbefore, Or.inr ⟨by omega, h2⟩⟩
        · refine ⟨2, [TMCall.Update (r.step + 1), TMCall.Update (r.step + 2)], ?_⟩
          refine ⟨by simp only [List.length_cons]; omega, by simp [importLoop, h1, h2, hok],
            by simp [importLoop, h1, h2, hok], by simp [importLoop, h1, h2, hok],
            by simp [updatesOf, List.range'_succ], by simp [insertsOf, hok], by simp,
            hbefore, Or.inr ⟨by omega, h2⟩⟩
      | true =>
        have hdiv : ∀ k, (k + 2) / 2 = k / 2 + 1 := by intro k; omega
        have hbefore : ∀ k, (∀ v, r.step + 1 + 1 < v → v < r.step + 1 + 1 + k → Update v = true) →
            ∀ v, r.step < v → v < r.step + (k + 2) → Update v = true := by
          intro k hrest v hv1 hv2
          by_cases e1 : v = r.step + 1
          · rw [e1]; exact h1
          · by_cases e2 : v = r.step + 2
            · rw [e2]; exact h2
            · exact hrest v (by omega) (by omega)
        have hlast : ∀ k, (k = 2 * rest.length ∨ (1 ≤ k ∧ Update (r.step + 1 + 1 + k) = false)) →
            (k + 2 = 2 * (path :: rest).length ∨
              (1 ≤ k + 2 ∧ Update (r.step + (k + 2)) = false)) := by
          intro k hk
          rcases hk with hk | ⟨_, hk⟩
          · left; simp only [List.length_cons]; omega
          · right
            refine ⟨by omega, ?_⟩
            rw [show r.step + (k + 2) = r.step + 1 + 1 + k by omega]
            exact hk
        by_cases hok : IsOk path = true
        · obtain ⟨k, added, hk, hstep, hmax, hlog, hupd, hins, hcommit, htrue, hstop⟩ :=
            ih { maximum := r.maximum, step := r.step + 1 + 1,
                 log := r.log ++ [TMCall.Update (r.step + 1)] ++ [TMCall.Insert path]
                   ++ [TMCall.Update (r.step + 1 + 1)] }
          refine ⟨k + 2, [TMCall.Update (r.step + 1), TMCall.Insert path,
            TMCall.Update (r.step + 2)] ++ added, ?_⟩
          simp only [importLoop, h1, h2, hok, Bool.not_true, Bool.false_eq_true, if_false,
            if_true]
          dsimp only at hstep hmax hlog hupd htrue hstop
          refine ⟨by simp only [List.length_cons]; omega, ?_, hmax, ?_, ?_, ?_, ?_,
            hbefore k htrue, hlast k hstop⟩
          · rw [hstep]; omega
          · rw [hlog]; simp
          · simp only [updatesOf] at hupd ⊢
            simp [List.filterMap_append, hupd, List.range'_succ]
          · simp only [insertsOf] at hins ⊢
            simp [List.filterMap_append, hins, hdiv, hok]
          · simpa using hcommit
        · obtain ⟨k, added, hk, hstep, hmax, hlog, hupd, hins, hcommit, htrue, hstop⟩ :=
            ih { maximum := r.maximum, step := r.step + 1 + 1,
                 log := r.log ++ [TMCall.Update (r.step + 1)]
                   ++ [TMCall.Update (r.step + 1 + 1)] }
          refine ⟨k + 2, [TMCall.Update (r.step + 1), TMCall.Update (r.step + 2)] ++ added, ?_⟩
          simp only [importLoop, h1, h2, hok, Bool.not_true, Bool.false_eq_true, if_false]
          dsimp only at hstep hmax hlog hupd htrue hstop
          refine ⟨by simp only [List.length_cons]; omega, ?_, hmax, ?_, ?_, ?_, ?_,
            hbefore k htrue, hlast k hstop⟩
          · rw [hstep]; omega
          · rw [hlog]; simp
          · simp only [updatesOf] at hupd ⊢
            simp [List.filterMap_append, hupd, List.range'_succ]
          · simp only [insertsOf] at hins ⊢
            simp [List.filterMap_append, hins, hdiv, hok]
          · simpa using hcommit

/-- C14: for every list of `n` selected paths, every outcome of loading them and every way
the progress dialog answers, the import returns.  The dialog maximum is `2n+1`; the values
passed to `Update` are 1, 2, ..., `step`, with `step` at most `2n`, so all below the
maximum; every update before the last is answered with true, and `step` is `2n` unless the
last update is answered with false (the abort).  The catalogs inserted are the usable ones
among the first `step / 2` paths, in path order: an abort at the first update of catalog
`i` (update `2i+1`) leaves catalog `i` out, an abort at its second update (update `2i+2`)
has it in; without an abort they are all the usable ones.  The loop does not commit;
`Pulse`, `Commit` and `UpdateStats` follow it, so `Commit` is called exactly once, aborted
or not. -/
theorem C14_import_loop (IsOk : String → Bool) (Update : Nat → Bool) (paths : List String) :
    ∃ r loopLog, OnImportIntoTM IsOk Update true paths = some r ∧
      r.maximum = 2 * paths.length + 1 ∧
      r.log = loopLog ++ [TMCall.Pulse, TMCall.Commit, TMCall.UpdateStats] ∧
      loopLog.count TMCall.Commit = 0 ∧
      r.log.count TMCall.Commit = 1 ∧
      updatesOf r.log = List.range' 1 r.step ∧
      r.step ≤ 2 * paths.length ∧
      (∀ v ∈ updatesOf r.log, 1 ≤ v ∧ v ≤ 2 * paths.length ∧ v < r.maximum) ∧
      (∀ v, 1 ≤ v → v < r.step → Update v = true) ∧
      (r.step = 2 * paths.length ∨ (1 ≤ r.step ∧ Update r.step = false)) ∧
      insertsOf r.log = (paths.take (r.step / 2)).filter IsOk ∧
      (∀ i, r.step = 2 * i + 1 → insertsOf r.log = (paths.take i).filter IsOk) ∧
      (∀ i, r.step = 2 * i + 2 → insertsOf r.log = (paths.take (i + 1)).filter IsOk) ∧
      ((∀ v, 1 ≤ v → v ≤ 2 * paths.length → Update v = true) →
        r.step = 2 * paths.length ∧ insertsOf r.log = paths.filter IsOk) := by
  obtain ⟨k, added, hk, hstep, hmax, hlog, hupd, hins, hcommit, htrue, hstop⟩ :=
    importLoop_spec IsOk Update paths { maximum := paths.length * 2 + 1, step := 0, log := [] }
  dsimp only at hstep hmax hlog hupd htrue hstop
  simp only [Nat.zero_add, List.nil_append] at hstep hlog hupd htrue hstop
  have hupdates : updatesOf (added ++ [TMCall.Pulse, TMCall.Commit, TMCall.UpdateStats])
      = List.range' 1 k := by
    simp only [updatesOf] at hupd ⊢
    simp [List.filterMap_append, hupd]
  have hinserts : insertsOf (added ++ [TMCall.Pulse, TMCall.Commit, TMCall.UpdateStats])
      = (paths.take (k / 2)).filter IsOk := by
    simp only [insertsOf] at hins ⊢
    simp [List.filterMap_append, hins]
  generalize hr0 : importLoop IsOk Update paths
    { maximum := paths.length * 2 + 1, step := 0, log := [] } = r0 at hstep hmax hlog
  refine ⟨{ r0 with log := r0.log ++ [TMCall.Pulse, TMCall.Commit, TMCall.UpdateStats] },
    added, ?_, ?_⟩
  · simp [OnImportIntoTM, hr0]
  · dsimp only
    rw [hstep, hlog, hmax, hupdates, hinserts]
    refine ⟨by omega, rfl, hcommit, ?_, rfl, hk, ?_, ?_, hstop, rfl, ?_, ?_, ?_⟩
    · simp [List.count_append, hcommit]
    · intro v hv
      rw [List.mem_range'_1] at hv
      omega
    · intro v hv1 hv2
      exact htrue v (by omega) hv2
    · intro i hi
      rw [hi]
      congr 2
      omega
    · intro i hi
      rw [hi]
      congr 2
      omega
    · intro hall
      have hfull : k = 2 * paths.length := by
        rcases hstop with h | ⟨h1, h2⟩
        · exact h
        · rw [hall k h1 hk] at h2
          cases h2
      refine ⟨hfull, ?_⟩
      rw [hfull]
      simp

/-- The import of three files, the second unusable, aborted at the fourth update: the first
catalog is inserted, the third is never reached, and the commit is still made. -/
theorem OnImportIntoTM_sample :
    OnImportIntoTM sampleIsOk sampleUpdate true ["a.po", "broken.po", "c.po"]
      = some ⟨7, 4, [.Update 1, .Insert "a.po", .Update 2, .Update 3, .Update 4,
          .Pulse, .Commit, .UpdateStats]⟩ ∧
    OnImportIntoTM sampleIsOk (fun _ => true) true ["a.po", "broken.po", "c.po"]
      = some ⟨7, 6, [.Update 1, .Insert "a.po", .Update 2, .Update 3, .Update 4,
          .Update 5, .Insert "c.po", .Update 6, .Pulse, .Commit, .UpdateStats]⟩ ∧
    OnImportIntoTM sampleIsOk sampleUpdate false ["a.po"] = none := by
  refine ⟨?_, ?_, ?_⟩ <;> decide

end Poedit
